import Mathlib

/-!
# Verification of the BCFNT font-atlas builder and serializer (`source/bcfnt.cpp`)

This file shallowly embeds the font-atlas construction pipeline of
`source/bcfnt.cpp` — glyph indexing, code-range coalescing, sheet packing,
container serialization, and the persistence loop — and proves the
specification's testable properties about the embedding.

Machine integers are modelled as `Nat`/`Int`, with explicit `% 2 ^ w`
truncation where the C++ code narrows to a fixed width.
-/

set_option autoImplicit false

namespace Bcfnt

/-! ## Fixed-width integer helpers -/

/-- Narrowing conversion to `uint8` (`static_cast<std::uint8_t>`): modular. -/
def toUInt8 (v : Int) : Nat := (v % 256).toNat

/-- Narrowing conversion to `int8` (`static_cast<std::int8_t>`):
modular, then reinterpreted as a two's-complement signed byte. -/
def toInt8 (v : Int) : Int :=
  let r := v % 256
  if r < 128 then r else r - 256

/-- Arithmetic right shift by 6 on a signed machine integer (the `>> 6`
conversions from FreeType's 26.6 fixed-point format).  On two's-complement
hardware this shifts the bits of the representation, which keeps the sign. -/
def asr6 : Int → Int
  | .ofNat n => .ofNat (n >>> 6)
  | .negSucc n => .negSucc (n >>> 6)

/-! ## Little-endian byte emitters (the `operator<<` overloads) -/

/-- `operator<<(std::vector<std::uint8_t>&, std::uint8_t)`: one byte. -/
def u8 (v : Nat) : List Nat := [v % 256]

/-- The `uint8` write applied to a signed value (e.g. `CharWidthInfo::left`). -/
def u8i (v : Int) : List Nat := [toUInt8 v]

/-- `operator<<(std::vector<std::uint8_t>&, std::uint16_t)`:
two bytes, least-significant first. -/
def le16 (v : Nat) : List Nat := [(v >>> 0) % 256, (v >>> 8) % 256]

/-- `operator<<(std::vector<std::uint8_t>&, std::uint32_t)`:
four bytes, least-significant first. -/
def le32 (v : Nat) : List Nat :=
  [(v >>> 0) % 256, (v >>> 8) % 256, (v >>> 16) % 256, (v >>> 24) % 256]

/-- Decode two bytes read least-significant-first. -/
def decodeLE16 (b0 b1 : Nat) : Nat := b0 + 256 * b1

/-- Decode four bytes read least-significant-first. -/
def decodeLE32 (b0 b1 b2 b3 : Nat) : Nat :=
  b0 + 256 * b1 + 256 ^ 2 * b2 + 256 ^ 3 * b3

/-- Four-character section tags (`operator<<` on `const char *`). -/
def tagCFNT : List Nat := [0x43, 0x46, 0x4E, 0x54]

def tagFINF : List Nat := [0x46, 0x49, 0x4E, 0x46]

def tagTGLP : List Nat := [0x54, 0x47, 0x4C, 0x50]

def tagCWDH : List Nat := [0x43, 0x57, 0x44, 0x48]

def tagCMAP : List Nat := [0x43, 0x4D, 0x41, 0x50]

/-! ## The glyph indexer (`BCFNT::BCFNT`, lines 118–133)

The constructor walks the face's character enumeration
(`FT_Get_First_Char` / `FT_Get_Next_Char`) and fills a
`std::map<FT_ULong, CharMap>` keyed by code point, assigning dense
`cfntIndex` values in enumeration order.  We model the enumeration as the
list of `(codePoint, faceIndex)` pairs the rasterizer would yield
(terminated by code `0`, as in FreeType), and the `std::map` as an
association list sorted ascending by code. -/

/-- One `CharMap` entry: code point, FreeType face index, CFNT glyph index. -/
structure CharMapEntry where
  code : Nat
  faceIndex : Nat
  cfntIndex : Nat
  deriving Repr, DecidableEq

/-- `std::map::emplace`: ordered insert that does nothing when the key is
already present. -/
def mapEmplace : List CharMapEntry → CharMapEntry → List CharMapEntry
  | [], e => [e]
  | x :: xs, e =>
    if e.code < x.code then e :: x :: xs
    else if e.code = x.code then x :: xs
    else x :: mapEmplace xs e

/-- `std::map` lookup of the glyph index for a code point. -/
def mapLookup (m : List CharMapEntry) (c : Nat) : Option CharMapEntry :=
  m.find? (fun e => e.code = c)

/-- Outcome of the indexing `while` loop: it can run out of fuel (the real
loop does not terminate), hit the `assert(cfntIndex != 0xFFFF)` abort, or
finish with the face map. -/
inductive LoopResult where
  | outOfFuel
  | aborted
  | done (m : List CharMapEntry)
  deriving Repr, DecidableEq

/-- The indexing `while` loop (lines 122–133), fuelled.

```cpp
FT_ULong code = FT_Get_First_Char(face, &faceIndex);
while(code != 0)
{
  if(code >= std::numeric_limits<std::uint16_t>::max())
    continue;                              // NB: does not advance `code`
  assert(cfntIndex != std::numeric_limits<std::uint16_t>::max());
  faceMap.emplace(code, CharMap\x7bcode, faceIndex, cfntIndex++\x7d);
  code = FT_Get_Next_Char(face, code, &faceIndex);
}
```

`cur` is the current `(code, faceIndex)` pair, `rest` the remainder of the
enumeration (an exhausted enumeration yields code `0`). -/
def indexLoop : Nat → Nat × Nat → List (Nat × Nat) → List CharMapEntry → Nat → LoopResult
  | 0, _, _, _, _ => .outOfFuel
  | fuel + 1, cur, rest, acc, cfntIndex =>
    if cur.1 = 0 then .done acc
    else if 0xFFFF ≤ cur.1 then
      indexLoop fuel cur rest acc cfntIndex
    else if cfntIndex = 0xFFFF then .aborted
    else
      let acc' := mapEmplace acc ⟨cur.1, cur.2, cfntIndex⟩
      match rest with
      | [] => indexLoop fuel (0, 0) [] acc' (cfntIndex + 1)
      | p :: ps => indexLoop fuel p ps acc' (cfntIndex + 1)

/-- Build the `faceMap` from an enumeration of `(codePoint, faceIndex)`
pairs, with the given fuel bound on loop iterations. -/
def buildFaceMap (enum : List (Nat × Nat)) (fuel : Nat) : LoopResult :=
  match enum with
  | [] => indexLoop fuel (0, 0) [] [] 0
  | p :: ps => indexLoop fuel p ps [] 0

/-- Replacement ("alternate") glyph-index selection (lines 138–146):
`U+FFFD` if indexed, else `?`, else space, else `0`. -/
def selectAltIndex (m : List CharMapEntry) : Nat :=
  match mapLookup m 0xFFFD with
  | some e => e.cfntIndex
  | none =>
    match mapLookup m 0x3F with
    | some e => e.cfntIndex
    | none =>
      match mapLookup m 0x20 with
      | some e => e.cfntIndex
      | none => 0

/-- The entries of `enum`, paired with glyph indices `k, k+1, …` in order:
the face map the indexer produces on an ascending enumeration. -/
def withIndices (k : Nat) : List (Nat × Nat) → List CharMapEntry
  | [] => []
  | p :: ps => ⟨p.1, p.2, k⟩ :: withIndices (k + 1) ps

/-- Glyph indices are unique, dense from 0 and assigned in map
(ascending-code) order: read off in code order they are `0, 1, 2, …`. -/
def goodIndices (m : List CharMapEntry) : Prop :=
  m.map (fun e => e.cfntIndex) = List.range m.length

instance (m : List CharMapEntry) : Decidable (goodIndices m) := by
  unfold goodIndices; infer_instance

/-! ## Code-range coalescing (`BCFNT::BCFNT`, lines 148–164)

`bcfnt::CMAP` carries a code range, a mapping-method tag and a polymorphic
payload (`CMAPData`); per the design notes the payload is a tagged union
over `Direct`/`Table`/`Scan`, of which only `Direct` is ever produced. -/

/-- The `CMAPData::CMAP_TYPE_*` mapping-method tags. -/
inductive MappingMethod where
  | direct
  | table
  | scan
  deriving Repr, DecidableEq

/-- Numeric value of the mapping-method tag as serialized (`CMAP_TYPE_DIRECT`
is 0 in the BCFNT format). -/
def MappingMethod.tag : MappingMethod → Nat
  | .direct => 0
  | .table => 1
  | .scan => 2

/-- The polymorphic `CMAPData` payload.  `CMAPDirect` stores the base glyph
index (its `offset` member). -/
inductive CMAPPayload where
  | direct (offset : Nat)
  | table (entries : List Nat)
  | scan (entries : List (Nat × Nat))
  deriving Repr, DecidableEq

/-- One `bcfnt::CMAP` record. -/
structure CMAP where
  codeBegin : Nat
  codeEnd : Nat
  mappingMethod : MappingMethod
  data : CMAPPayload
  deriving Repr, DecidableEq

/-- Body of the coalescing loop, carrying `cmaps.back()` separately
(the source mutates `cmaps.back().codeEnd` in place):

```cpp
if(code == 0 || cmaps.empty() || cmaps.back().codeEnd != code-1)
  \x7b start a new range with payload CMAPDirect(cfntIndex) \x7d
else
  cmaps.back().codeEnd = code;
```

Note `code - 1` is `Nat` subtraction; as in the C++ the `code == 0` disjunct
is tested first, so the wrap-around value is never compared. -/
def coalesceAux (cur : CMAP) : List CharMapEntry → List CMAP
  | [] => [cur]
  | e :: rest =>
    if e.code = 0 ∨ cur.codeEnd ≠ e.code - 1 then
      cur :: coalesceAux ⟨e.code, e.code, .direct, .direct e.cfntIndex⟩ rest
    else
      coalesceAux { cur with codeEnd := e.code } rest

/-- Coalesce the (code-ascending) face map into `CMAP` ranges; on an empty
map the loop body never runs and no range is emitted. -/
def coalesce : List CharMapEntry → List CMAP
  | [] => []
  | e :: rest => coalesceAux ⟨e.code, e.code, .direct, .direct e.cfntIndex⟩ rest

/-- `coalesceCMAP` (line 59): the recognized-but-unimplemented secondary
coalescing pass; a named no-op seam. -/
def coalesceCMAP (cmaps : List CMAP) : List CMAP := cmaps

/-- Specification-side decomposition of an entry list into maximal runs of
consecutive code points (each run is a contiguous block `c, c+1, c+2, …`). -/
def splitRunsAux (run : List CharMapEntry) (prev : CharMapEntry) :
    List CharMapEntry → List (List CharMapEntry)
  | [] => [run]
  | e :: rest =>
    if prev.code + 1 = e.code then splitRunsAux (run ++ [e]) e rest
    else run :: splitRunsAux [e] e rest

/-- Maximal-consecutive-run decomposition of an entry list. -/
def splitRuns : List CharMapEntry → List (List CharMapEntry)
  | [] => []
  | e :: rest => splitRunsAux [e] e rest

/-- The single `CMAP` range a run of consecutive code points should yield:
it spans from the run's first to its last code point and its `Direct`
payload is the first code point's glyph index. -/
def runRange (r : List CharMapEntry) : CMAP :=
  { codeBegin := (r.headD ⟨0, 0, 0⟩).code
    codeEnd := (r.getLastD ⟨0, 0, 0⟩).code
    mappingMethod := .direct
    data := .direct (r.headD ⟨0, 0, 0⟩).cfntIndex }

/-! ## The atlas builder (`BCFNT::BCFNT`, lines 166–243)

External collaborators are parameters of the model: glyph rasterization
(`FT_Load_Glyph` + the glyph slot) is an oracle from the face index to an
optional rendered glyph, and the swizzle transform and the
`quantum_to_bits<4>` channel quantizer of `appendSheet` are opaque
function parameters. -/

/-- The data read from `face->glyph` after a successful
`FT_Load_Glyph(face, faceIndex, FT_LOAD_RENDER)`. -/
structure GlyphRender where
  /-- `metrics.horiBearingX`, 26.6 fixed point. -/
  horiBearingX : Int
  /-- `metrics.width`, 26.6 fixed point. -/
  metricsWidth : Int
  /-- `metrics.horiAdvance`, 26.6 fixed point. -/
  horiAdvance : Int
  /-- `bitmap.rows`. -/
  bitmapRows : Nat
  /-- `bitmap.width`. -/
  bitmapWidth : Nat
  /-- `bitmap_left`. -/
  bitmapLeft : Int
  /-- `bitmap_top`. -/
  bitmapTop : Int
  /-- `bitmap.buffer[y * bitmap.width + x]`: per-pixel coverage. -/
  buffer : Nat → Nat → Nat

/-- One `CharWidthInfo` entry (fields are `int8`/`uint8`/`uint8` per the
data model). -/
structure CharWidthInfo where
  left : Int
  glyphWidth : Nat
  charWidth : Nat
  deriving Repr, DecidableEq

/-- The 26.6 → pixel conversions of lines 184–186, with the narrowing to
the `CharWidthInfo` field widths. -/
def mkWidth (g : GlyphRender) : CharWidthInfo :=
  { left := toInt8 (asr6 g.horiBearingX)
    glyphWidth := toUInt8 (asr6 g.metricsWidth)
    charWidth := toUInt8 (asr6 g.horiAdvance) }

/-- A sheet canvas: alpha coverage at pixel `(x, y)` of the 256×512 canvas.
Only the alpha channel is modelled; the red/green/blue channels are
written as zero and never read back by `appendSheet`. -/
def Sheet : Type := Nat → Nat → Nat

/-- A fresh fully-transparent canvas (`Magick::Image(Geometry(256,512),
transparent())`). -/
def freshSheet : Sheet := fun _ _ => 0

/-- Write alpha `v` at `(x, y)`. -/
def Sheet.set (s : Sheet) (x y v : Nat) : Sheet :=
  fun x' y' => if x' = x ∧ y' = y then v else s x' y'

/-- The external collaborators used by `appendSheet`: the swizzle tile
transform and the `quantum_to_bits<4>` alpha quantizer. -/
structure ExternalOps where
  swizzle : Sheet → Sheet
  quant4 : Nat → Nat

/-- `appendSheet` (lines 40–56): swizzle the sheet, then pack two
horizontally-adjacent pixels' quantized alphas into one byte, low nibble
first, row-major over the 256×512 canvas — 65536 bytes per sheet. -/
def appendSheetBytes (ops : ExternalOps) (sheet : Sheet) : List Nat :=
  let sw := ops.swizzle sheet
  (List.range (256 * 512 / 2)).map fun j =>
    (ops.quant4 (sw ((2 * j + 1) % 256) ((2 * j + 1) / 256)) <<< 4) |||
      ops.quant4 (sw ((2 * j) % 256) ((2 * j) / 256))

/-- Composite a rendered glyph into the 24×30 cell at `(sheetX, sheetY)`
(lines 208–233): target pixel `(x + bitmap_left, (baseline - bitmap_top) + y)`
relative to the cell, clipped to the cell bounds. -/
def compositeGlyph (baseline : Int) (g : GlyphRender) (sheetX sheetY : Nat)
    (sheet : Sheet) : Sheet :=
  (List.range g.bitmapRows).foldl
    (fun sh y =>
      (List.range g.bitmapWidth).foldl
        (fun sh x =>
          let px : Int := (x : Nat) + g.bitmapLeft
          let py : Int := (y : Nat) + (baseline - g.bitmapTop)
          if px < 0 ∨ 24 ≤ px ∨ py < 0 ∨ 30 ≤ py then sh
          else sh.set (sheetX + px.toNat) (sheetY + py.toNat) (g.buffer y x))
        sh)
    sheet

/-- The mutable state of the extraction loop: the growing `widths` vector,
the in-progress sheet (if any), the finalized-sheet count and the
concatenated quantized sheet bytes. -/
structure BuildState where
  widths : List CharWidthInfo
  sheet : Option Sheet
  numSheets : Nat
  sheetData : List Nat

/-- Sheet rollover (lines 191–200): when the glyph index `k` is a
multiple of 170, finalize any in-progress sheet (quantize, append,
increment the count) and allocate a fresh transparent canvas. -/
def rolloverStep (ops : ExternalOps) (k : Nat) (s : BuildState) :
    BuildState :=
  if k % 170 = 0 then
    match s.sheet with
    | some sh =>
      { s with
        sheetData := s.sheetData ++ appendSheetBytes ops sh
        numSheets := s.numSheets + 1
        sheet := some freshSheet }
    | none => { s with sheet := some freshSheet }
  else s

/-- Cell targeting and compositing (lines 202–233): `assert(sheet)`, the
cell-bound assertions, and the composite into the cell of glyph index
`k`.  `none` models an `assert` failure (abort). -/
def compositeStep (baseline : Int) (g : GlyphRender)
    (k : Nat) (s : BuildState) : Option BuildState :=
  match s.sheet with
  | none => none
  | some sh =>
    if k % 170 % 10 * 24 + 24 < 256 ∧ k % 170 / 10 * 30 + 30 < 512 then
      some { s with
        sheet := some
          (compositeGlyph baseline g (k % 170 % 10 * 24) (k % 170 / 10 * 30) sh) }
    else none

/-- Loop body for one map entry (lines 173–234): load and render the
glyph (a failure is reported and the glyph skipped, `continue`), record
its width entry, roll the sheet over, and composite. -/
def entryStep (ops : ExternalOps) (load : Nat → Option GlyphRender)
    (baseline : Int) (st : Option BuildState) (e : CharMapEntry) :
    Option BuildState :=
  match st with
  | none => none
  | some s =>
    match load e.faceIndex with
    | none => some s
    | some g =>
      compositeStep baseline g e.cfntIndex
        (rolloverStep ops e.cfntIndex
          { s with widths := s.widths ++ [mkWidth g] })

/-- Loop body for one code point: the `faceMap[code]` lookups feeding
`entryStep`. -/
def glyphStep (ops : ExternalOps) (load : Nat → Option GlyphRender)
    (m : List CharMapEntry) (baseline : Int) (st : Option BuildState)
    (code : Nat) : Option BuildState :=
  entryStep ops load baseline st ((mapLookup m code).getD ⟨0, 0, 0⟩)

/-- The final flush (lines 237–241): after the last code point, finalize
any in-progress sheet. -/
def flushSheet (ops : ExternalOps) (s : BuildState) : BuildState :=
  match s.sheet with
  | none => s
  | some sh =>
    { s with
      sheetData := s.sheetData ++ appendSheetBytes ops sh
      numSheets := s.numSheets + 1
      sheet := none }

/-- The doubly-nested extraction loop plus the final sheet flush
(lines 170–241): for each `cmap`, for each code in
`[codeBegin, codeEnd]`, run `glyphStep`; afterwards finalize any
in-progress sheet. -/
def buildAtlas (ops : ExternalOps) (load : Nat → Option GlyphRender)
    (m : List CharMapEntry) (baseline : Int) (cmaps : List CMAP) :
    Option BuildState :=
  match
    cmaps.foldl
      (fun st cmap =>
        (List.range' cmap.codeBegin (cmap.codeEnd + 1 - cmap.codeBegin)).foldl
          (glyphStep ops load m baseline) st)
      (some ⟨[], none, 0, []⟩)
  with
  | none => none
  | some s => some (flushSheet ops s)

/-! ## The serializer (`BCFNT::serialize`, lines 246–391) -/

/-- The `BCFNT` aggregate, as read by `serialize`.  The global metrics are
kept as the signed integers produced by the `>> 6` conversions; `serialize`
narrows them at emission. -/
structure BCFNT where
  altIndex : Nat
  lineFeed : Int
  height : Int
  width : Int
  maxWidth : Int
  ascent : Int
  cmaps : List CMAP
  widths : List CharWidthInfo
  sheetData : List Nat
  numSheets : Nat

/-- Per-`CMAP` contribution to the file-size computation (lines 266–281):
`0x14` of header plus 2 bytes of `Direct` payload; any other mapping
method hits `abort()`, modelled as `none`. -/
def cmapFileSize (c : CMAP) : Option Nat :=
  match c.mappingMethod with
  | .direct => some (0x14 + 0x2)
  | .table => none
  | .scan => none

/-- The per-`CMAP` sizes of the file-size loop, aborting on the first
unsupported mapping method. -/
def cmapSizes : List CMAP → Option (List Nat)
  | [] => some []
  | c :: cs =>
    match cmapFileSize c with
    | none => none
    | some s =>
      match cmapSizes cs with
      | none => none
      | some rest => some (s :: rest)

/-- The precomputed layout (lines 250–287): section offsets, total file
size and block count, built by summing the preceding sections' sizes. -/
structure Layout where
  finfOffset : Nat
  tglpOffset : Nat
  cwdhOffset : Nat
  cmapOffset : Nat
  sheetOffset : Nat
  fileSize : Nat
  numBlocks : Nat
  deriving Repr, DecidableEq

/-- Compute the layout of a `BCFNT`; `none` models the `abort()` on a
non-`Direct` mapping method.  The offsets accumulate the sizes of the
CFNT header (`0x14`), FINF (`0x20`), TGLP (`0x20`), the CWDH header plus
width data (`0x10 + 3·|widths|`), the CMAP sections, and the sheet
data. -/
def computeLayout (f : BCFNT) : Option Layout :=
  match cmapSizes f.cmaps with
  | none => none
  | some sizes =>
    some
      { finfOffset := 0x14
        tglpOffset := 0x14 + 0x20
        cwdhOffset := 0x14 + 0x20 + 0x20
        cmapOffset := 0x14 + 0x20 + 0x20 + (0x10 + 3 * f.widths.length)
        sheetOffset :=
          0x14 + 0x20 + 0x20 + (0x10 + 3 * f.widths.length) + sizes.sum
        fileSize :=
          0x14 + 0x20 + 0x20 + (0x10 + 3 * f.widths.length) + sizes.sum +
            f.sheetData.length
        numBlocks := 3 + f.cmaps.length }

/-- The CFNT container header (lines 290–295). -/
def cfntHeader (fileSize numBlocks : Nat) : List Nat :=
  tagCFNT ++ le16 0xFEFF ++ le16 0x14 ++ le32 0x3 ++ le32 fileSize ++
    le32 numBlocks

/-- The FINF section (lines 299–314). -/
def finfSection (f : BCFNT) (tglpOffset cwdhOffset cmapOffset : Nat) :
    List Nat :=
  tagFINF ++ le32 0x20 ++ u8 0x1 ++ u8i f.lineFeed ++ le16 f.altIndex ++
    u8 0x0 ++ u8 0x0 ++ u8 0x0 ++ u8 0x1 ++ le32 (tglpOffset + 8) ++
    le32 (cwdhOffset + 8) ++ le32 (cmapOffset + 8) ++ u8i f.height ++
    u8i f.width ++ u8i f.ascent ++ u8 0x0

/-- The TGLP section (lines 318–331). -/
def tglpSection (f : BCFNT) (sheetOffset : Nat) : List Nat :=
  tagTGLP ++ le32 0x20 ++ u8 24 ++ u8 30 ++ u8i f.ascent ++
    u8i f.maxWidth ++ le32 f.sheetData.length ++ le16 f.numSheets ++
    le16 0xB ++ le16 10 ++ le16 10 ++ le16 256 ++ le16 512 ++
    le32 sheetOffset

/-- The 3 bytes of one `CharWidthInfo` entry (lines 342–347). -/
def widthBytes (w : CharWidthInfo) : List Nat :=
  u8i w.left ++ u8 w.glyphWidth ++ u8 w.charWidth

/-- All width entries, in glyph-index order. -/
def encodeWidths (ws : List CharWidthInfo) : List Nat :=
  ws.foldl (fun out w => out ++ widthBytes w) []

/-- The CWDH section header plus width data (lines 336–347). -/
def cwdhSection (f : BCFNT) : List Nat :=
  tagCWDH ++ le32 (0x10 + 3 * f.widths.length) ++ le16 0 ++
    le16 f.widths.length ++ le32 0 ++ encodeWidths f.widths

/-- Decode width-block bytes back into `(left, glyphWidth, charWidth)`
triples, consuming 3 bytes per entry and reading the first byte as a
two's-complement signed byte. -/
def decodeWidths : List Nat → List CharWidthInfo
  | b0 :: b1 :: b2 :: rest =>
    { left := if b0 < 128 then (b0 : Int) else (b0 : Int) - 256
      glyphWidth := b1
      charWidth := b2 } :: decodeWidths rest
  | _ => []

/-- An `assert(output.size() == off)` checkpoint, where `off` is a
`uint32` offset value: pass the buffer through or abort. -/
def checkLen (out : List Nat) (off : Nat) : Option (List Nat) :=
  if out.length = off % 2 ^ 32 then some out else none

/-- One CMAP section's bytes (lines 356–374): header, next-block offset,
then the mapping-kind payload.  A non-`Direct` method (`abort()`), or a
`Direct` method whose payload fails the `dynamic_cast` to `CMAPDirect`,
is fatal (`none`). -/
def cmapSection (c : CMAP) (nextOff : Nat) : Option (List Nat) :=
  match c.mappingMethod, c.data with
  | .direct, .direct off =>
    some (tagCMAP ++ le32 (0x14 + 0x2) ++ le16 c.codeBegin ++
      le16 c.codeEnd ++ le16 c.mappingMethod.tag ++ le16 0x0 ++
      le32 nextOff ++ le16 off)
  | _, _ => none

/-- The CMAP emission loop (lines 349–385).  Each iteration asserts
`output.size() == cmapOffset` (`cmapOffset` is a `uint32`), writes the
section, and advances `cmapOffset += size`; the last section's
next-offset is 0. -/
def writeCMAPs : List CMAP → Nat → List Nat → Option (List Nat)
  | [], _, out => some out
  | c :: rest, cmapOffset, out =>
    if out.length = cmapOffset % 2 ^ 32 then
      match cmapSection c
          (if rest.isEmpty then 0 else cmapOffset + (0x14 + 0x2) + 8) with
      | none => none
      | some bytes => writeCMAPs rest (cmapOffset + (0x14 + 0x2)) (out ++ bytes)
    else none

/-- The section-emission chain of `serialize` given the precomputed
layout (lines 290–391): every `assert` comparing `output.size()` with a
precomputed (`uint32`) offset is modelled as a `checkLen` that fails to
`none`. -/
def serializeBody (f : BCFNT) (L : Layout) : Option (List Nat) :=
  (checkLen (cfntHeader L.fileSize L.numBlocks) L.finfOffset).bind fun out =>
    (checkLen (out ++ finfSection f L.tglpOffset L.cwdhOffset L.cmapOffset)
      L.tglpOffset).bind fun out =>
      (checkLen (out ++ tglpSection f L.sheetOffset) L.cwdhOffset).bind
        fun out =>
        (writeCMAPs f.cmaps L.cmapOffset (out ++ cwdhSection f)).bind
          fun out =>
          (checkLen out L.sheetOffset).bind fun out =>
            checkLen (out ++ f.sheetData) L.fileSize

/-- Build the serialized byte buffer (lines 248–391): compute the layout,
then emit the sections. -/
def serializeBuf (f : BCFNT) : Option (List Nat) :=
  (computeLayout f).bind (serializeBody f)

/-! ## Persistence (lines 393–424)

The `fwrite` loop is modelled with a response oracle: call number `n`
gets back `(rc, err)` — the count `fwrite` reports written and the
`ferror` flag.  `fwrite` never reports more than was requested, so the
response is clamped to the remaining byte count.  The loop advances by at
least one byte per iteration or fails, so `buf.length` iterations of fuel
are always sufficient (`writeLoop_fuel` below). -/

/-- The retry loop.  Returns `(completed, fileBytes)`: whether the loop
flushed the whole buffer, and the bytes handed to `fwrite` so far (each
iteration writes the unwritten suffix `buf[offset:]`, of which `rc =
min (resp n).1 (buf.length - offset)` bytes land — `fwrite` never reports
more than requested).  The loop fails exactly when a call is short and
reports nothing written or an error; otherwise `offset` advances by `rc`.
`fuel` bounds the iteration count so the model is structurally recursive;
since each surviving iteration advances `offset` by at least one byte,
`buf.length` of fuel is always enough (`writeLoop_fuel`). -/
def writeLoop (resp : Nat → Nat × Bool) (buf : List Nat) :
    Nat → Nat → Nat → List Nat → Bool × List Nat
  | 0, offset, _, fileBytes => (buf.length ≤ offset, fileBytes)
  | fuel + 1, offset, n, fileBytes =>
    if offset < buf.length then
      if min (resp n).1 (buf.length - offset) ≠ buf.length - offset ∧
          (min (resp n).1 (buf.length - offset) = 0 ∨ (resp n).2) then
        (false, fileBytes)
      else
        writeLoop resp buf fuel
          (offset + min (resp n).1 (buf.length - offset)) (n + 1)
          (fileBytes ++
            ((buf.drop offset).take (min (resp n).1 (buf.length - offset))))
    else (true, fileBytes)

/-- `BCFNT::serialize`'s persistence tail: open, flush, close.  `openOk`
models `fopen` succeeding, `closeOk` models `fclose` returning 0. -/
def persist (openOk : Bool) (resp : Nat → Nat × Bool) (closeOk : Bool)
    (buf : List Nat) : Bool :=
  if openOk = false then false
  else if (writeLoop resp buf buf.length 0 0 []).1 = false then false
  else closeOk

/-! ## Specification-side definitions and concrete fixtures -/

/-- Division by 64 with truncation toward zero — the conversion the
specification's words describe ("divided by 64 with truncation (rounding
toward zero)"), to be compared with the source's `>> 6`. -/
def truncDiv64 (v : Int) : Int := Int.tdiv v 64

/-- The ranges guaranteed by the `CharWidthInfo` field widths
(`int8`/`uint8`/`uint8`). -/
def WidthInRange (w : CharWidthInfo) : Prop :=
  -128 ≤ w.left ∧ w.left < 128 ∧ w.glyphWidth < 256 ∧ w.charWidth < 256

instance (w : CharWidthInfo) : Decidable (WidthInRange w) := by
  unfold WidthInRange; infer_instance

/-- Two map entries carry consecutive code points. -/
def consec (a b : CharMapEntry) : Prop := a.code + 1 = b.code

instance (a b : CharMapEntry) : Decidable (consec a b) := by
  unfold consec; infer_instance

/-- Adjacent runs are separated by a gap: the code point after the first
run's last is not the second run's first. -/
def runGap (g g' : List CharMapEntry) : Prop :=
  ¬ (g.getLastD ⟨0, 0, 0⟩).code + 1 = (g'.headD ⟨0, 0, 0⟩).code

/-- Sheet-rollover invariant after the glyphs with indices `0, …, k-1`
have all been processed successfully: for `k = 0` no sheet exists and none
were finalized; afterwards a sheet is in progress and `(k-1)/170` were
finalized. -/
def SheetInv (k : Nat) (s : BuildState) : Prop :=
  if k = 0 then s.sheet = none ∧ s.numSheets = 0
  else s.sheet.isSome = true ∧ s.numSheets = (k - 1) / 170

/-- A `CMAP` whose mapping method is `Direct` with a matching payload —
the only shape `serialize` supports without aborting. -/
def directShaped (c : CMAP) : Prop :=
  c.mappingMethod = .direct ∧ ∃ v, c.data = .direct v

instance (c : CMAP) : Decidable (directShaped c) := by
  unfold directShaped
  rcases c with ⟨_, _, mm, data⟩
  cases mm <;> cases data <;> simp <;> infer_instance

/-- A rendered glyph with an empty bitmap and zero metrics (fixture). -/
def g0 : GlyphRender :=
  { horiBearingX := 0, metricsWidth := 0, horiAdvance := 0, bitmapRows := 0
    bitmapWidth := 0, bitmapLeft := 0, bitmapTop := 0, buffer := fun _ _ => 0 }

/-- Trivial external collaborators (fixture). -/
def ops0 : ExternalOps := { swizzle := id, quant4 := fun _ => 0 }

/-- A rasterization oracle that fails on face index 0 and succeeds on
face index 1 (fixture). -/
def loadFail0 : Nat → Option GlyphRender :=
  fun fi => if fi = 1 then some g0 else none

/-- A rasterization oracle that always succeeds (fixture). -/
def loadAll : Nat → Option GlyphRender := fun _ => some g0

/-- A two-entry face map: codes 1 and 2 with glyph indices 0 and 1, whose
first glyph (face index 0) fails to rasterize under `loadFail0`
(fixture). -/
def m0 : List CharMapEntry := [⟨1, 0, 0⟩, ⟨2, 1, 1⟩]

/-- An empty atlas (fixture). -/
def emptyBCFNT : BCFNT :=
  { altIndex := 0, lineFeed := 0, height := 0, width := 0, maxWidth := 0
    ascent := 0, cmaps := [], widths := [], sheetData := [], numSheets := 0 }

/-- All recorded width entries of a (possibly aborted) build state are in
the `CharWidthInfo` field ranges. -/
def WidthsOK (st : Option BuildState) : Prop :=
  ∀ s, st = some s → ∀ w ∈ s.widths, WidthInRange w

/-! ## Supporting lemmas -/

/-- The arithmetic right shift by 6 is floor division by 64. -/
theorem asr6_eq_fdiv (v : Int) : asr6 v = Int.fdiv v 64 := by
  cases v with
  | ofNat n =>
    cases n with
    | zero => rfl
    | succ m =>
      show Int.ofNat ((m + 1) >>> 6) = Int.fdiv (Int.ofNat (m + 1)) 64
      rw [Nat.shiftRight_eq_div_pow]
      rfl
  | negSucc n =>
    show Int.negSucc (n >>> 6) = Int.fdiv (Int.negSucc n) 64
    rw [Nat.shiftRight_eq_div_pow]
    rfl

/-- On non-negative values, floor division and truncating division by 64
coincide. -/
theorem asr6_eq_truncDiv64_of_nonneg (v : Int) (h : 0 ≤ v) :
    asr6 v = truncDiv64 v := by
  obtain ⟨n, rfl⟩ := Int.eq_ofNat_of_zero_le h
  show Int.ofNat (n >>> 6) = _
  rw [Nat.shiftRight_eq_div_pow]
  rfl

/-- The loop of lines 122–133 never terminates once the current code
point is `≥ 0xFFFF`: the filtering `continue` skips the
`FT_Get_Next_Char` advance, so the same code point is re-tested forever. -/
theorem indexLoop_stuck (fuel : Nat) (cur : Nat × Nat)
    (rest : List (Nat × Nat)) (acc : List CharMapEntry) (k : Nat)
    (hge : 0xFFFF ≤ cur.1) : indexLoop fuel cur rest acc k = .outOfFuel := by
  induction fuel with
  | zero => rfl
  | succ fuel ih =>
    have hne : ¬ cur.1 = 0 := by omega
    simp only [indexLoop, if_neg hne, if_pos hge]
    exact ih

/-! ### C10 -/

/-- C10: every multi-byte integer field of the container is written
least-significant byte first.  The `uint16` and `uint32` writers emit
`v % 256`, then successively higher byte slices, and reading the bytes
back least-significant-first recovers the value modulo the field width;
in particular the byte-order mark `0xFEFF` appears as bytes `FF FE` at
offsets 4–5 of the container header. -/
theorem little_endian_fields (v : Nat) :
    le16 v = [v % 256, v / 2 ^ 8 % 256] ∧
    decodeLE16 ((le16 v).getD 0 0) ((le16 v).getD 1 0) = v % 2 ^ 16 ∧
    le32 v = [v % 256, v / 2 ^ 8 % 256, v / 2 ^ 16 % 256, v / 2 ^ 24 % 256] ∧
    decodeLE32 ((le32 v).getD 0 0) ((le32 v).getD 1 0) ((le32 v).getD 2 0)
      ((le32 v).getD 3 0) = v % 2 ^ 32 ∧
    ∀ fileSize numBlocks : Nat,
      ((cfntHeader fileSize numBlocks).drop 4).take 2 = [0xFF, 0xFE] := by
  refine ⟨?_, ?_, ?_, ?_, ?_⟩
  · simp [le16, Nat.shiftRight_eq_div_pow]
  · simp only [le16, decodeLE16, Nat.shiftRight_eq_div_pow,
      List.getD_cons_zero, List.getD_cons_succ]
    omega
  · simp [le32, Nat.shiftRight_eq_div_pow]
  · simp only [le32, decodeLE32, Nat.shiftRight_eq_div_pow,
      List.getD_cons_zero, List.getD_cons_succ]
    omega
  · intro fileSize numBlocks
    rfl

/-! ### C7 -/

/-- C7 counterexample: the claim says the stored pixel value is the
fixed-point value divided by 64 rounding toward zero; at the fixed-point
value `-1` (a negative left bearing) the code's `>> 6` yields `-1`, while
truncating division yields `0`. -/
theorem fixedPoint_trunc_counterexample :
    asr6 (-1) = -1 ∧ truncDiv64 (-1) = 0 ∧
    asr6 (-1) ≠ truncDiv64 (-1) := by
  refine ⟨rfl, rfl, ?_⟩
  decide

/-- C7 (amended): the `>> 6` conversions round toward negative infinity
(floor division by 64); this coincides with truncation toward zero
exactly on non-negative values. -/
theorem fixedPoint_floor_conversion (v : Int) :
    asr6 v = Int.fdiv v 64 ∧ (0 ≤ v → asr6 v = truncDiv64 v) := by
  exact ⟨asr6_eq_fdiv v, asr6_eq_truncDiv64_of_nonneg v⟩

/-- C7 witness: the amended statement applied at the concrete fixed-point
value 130, whose stored pixel value is 2. -/
theorem fixedPoint_floor_conversion_witness :
    asr6 130 = truncDiv64 130 ∧ asr6 130 = 2 :=
  ⟨(fixedPoint_floor_conversion 130).2 (by decide), rfl⟩

/-! ### C4 -/

/-- C4: on an input enumeration whose first code point is `0x10000`
(out of the 16-bit range), atlas construction does **not** complete: the
filter's `continue` skips the `FT_Get_Next_Char` advance, so the indexing
loop re-tests the same code point forever — no amount of fuel reaches a
result.  The claim (and the comment in the code) expect the code point to
be silently dropped. -/
theorem outOfRange_code_hangs (fuel : Nat) :
    buildFaceMap [(0x10000, 0)] fuel = .outOfFuel := by
  exact indexLoop_stuck fuel (0x10000, 0) [] [] 0 (by decide)

/-! ### C8 -/

/-- C8: the replacement-glyph index follows the exact priority
`U+FFFD`, then `?` (0x3F), then space (0x20), then index 0. -/
theorem altIndex_priority (m : List CharMapEntry) :
    (∀ e, mapLookup m 0xFFFD = some e → selectAltIndex m = e.cfntIndex) ∧
    (mapLookup m 0xFFFD = none →
      ∀ e, mapLookup m 0x3F = some e → selectAltIndex m = e.cfntIndex) ∧
    (mapLookup m 0xFFFD = none → mapLookup m 0x3F = none →
      ∀ e, mapLookup m 0x20 = some e → selectAltIndex m = e.cfntIndex) ∧
    (mapLookup m 0xFFFD = none → mapLookup m 0x3F = none →
      mapLookup m 0x20 = none → selectAltIndex m = 0) := by
  refine ⟨?_, ?_, ?_, ?_⟩
  · intro e he
    simp [selectAltIndex, he]
  · intro h1 e he
    simp [selectAltIndex, h1, he]
  · intro h1 h2 e he
    simp [selectAltIndex, h1, h2, he]
  · intro h1 h2 h3
    simp [selectAltIndex, h1, h2, h3]

/-- C8 witness: on a face map indexing only space and `?`, the priority
chain selects the index of `?` (namely 1). -/
theorem altIndex_priority_witness :
    selectAltIndex [⟨0x20, 0, 0⟩, ⟨0x3F, 0, 1⟩] = 1 :=
  (altIndex_priority [⟨0x20, 0, 0⟩, ⟨0x3F, 0, 1⟩]).2.1 (by decide)
    ⟨0x3F, 0, 1⟩ (by decide)

/-! ### C6 -/

/-- The narrowed 26.6 conversions always land in the `CharWidthInfo`
field ranges. -/
theorem mkWidth_inRange (g : GlyphRender) : WidthInRange (mkWidth g) := by
  have h1 : 0 ≤ asr6 g.horiBearingX % 256 :=
    Int.emod_nonneg _ (by decide)
  have h2 : asr6 g.horiBearingX % 256 < 256 :=
    Int.emod_lt_of_pos _ (by decide)
  have h3 : 0 ≤ asr6 g.metricsWidth % 256 :=
    Int.emod_nonneg _ (by decide)
  have h4 : asr6 g.metricsWidth % 256 < 256 :=
    Int.emod_lt_of_pos _ (by decide)
  have h5 : 0 ≤ asr6 g.horiAdvance % 256 :=
    Int.emod_nonneg _ (by decide)
  have h6 : asr6 g.horiAdvance % 256 < 256 :=
    Int.emod_lt_of_pos _ (by decide)
  unfold WidthInRange mkWidth toInt8 toUInt8
  refine ⟨?_, ?_, ?_, ?_⟩ <;> simp only <;> first
  | (split <;> omega)
  | omega

/-- Folding the width-append loop from any accumulator prepends the
accumulator. -/
theorem encodeWidths_acc (ws : List CharWidthInfo) (out : List Nat) :
    ws.foldl (fun o w => o ++ widthBytes w) out = out ++ encodeWidths ws := by
  induction ws generalizing out with
  | nil => simp [encodeWidths]
  | cons w ws ih =>
    show ws.foldl _ (out ++ widthBytes w) = _
    rw [ih]
    have : encodeWidths (w :: ws) = widthBytes w ++ encodeWidths ws := by
      show ws.foldl _ ([] ++ widthBytes w) = _
      rw [ih]
      simp
    rw [this, List.append_assoc]

/-- Reading back a byte produced by the `uint8` narrowing of an `int8`
value as two's complement recovers the value. -/
theorem int8_decode (v : Int) (hlo : -128 ≤ v) (hhi : v < 128) :
    (if toUInt8 v < 128 then (toUInt8 v : Int) else (toUInt8 v : Int) - 256)
      = v := by
  unfold toUInt8
  split <;> omega

/-- Decoding 3-byte width entries reverses encoding, entrywise, for
entries within the `CharWidthInfo` field ranges. -/
theorem decodeWidths_encodeWidths (ws : List CharWidthInfo)
    (h : ∀ w ∈ ws, WidthInRange w) :
    decodeWidths (encodeWidths ws) = ws := by
  induction ws with
  | nil => rfl
  | cons w ws ih =>
    obtain ⟨hl, hl', hg, hc⟩ := h w (by simp)
    have hrec : encodeWidths (w :: ws) = widthBytes w ++ encodeWidths ws := by
      show ws.foldl _ ([] ++ widthBytes w) = _
      rw [encodeWidths_acc]
      simp
    rw [hrec]
    show decodeWidths
      (toUInt8 w.left :: w.glyphWidth % 256 :: w.charWidth % 256 ::
        encodeWidths ws) = w :: ws
    rw [decodeWidths]
    rw [ih (fun w hw => h w (by simp [hw]))]
    congr 1
    rcases w with ⟨l, gw, cw⟩
    simp only at hl hl' hg hc
    congr 1
    · exact int8_decode l hl hl'
    · show gw % 256 = gw
      exact Nat.mod_eq_of_lt hg
    · show cw % 256 = cw
      exact Nat.mod_eq_of_lt hc

/-- The sheet rollover leaves the recorded widths unchanged. -/
theorem rolloverStep_widths (ops : ExternalOps) (k : Nat) (s : BuildState) :
    (rolloverStep ops k s).widths = s.widths := by
  unfold rolloverStep
  split
  · cases s.sheet <;> rfl
  · rfl

/-- Compositing leaves the recorded widths unchanged. -/
theorem compositeStep_widths (baseline : Int)
    (g : GlyphRender) (k : Nat) (s s' : BuildState)
    (h : compositeStep baseline g k s = some s') :
    s'.widths = s.widths := by
  unfold compositeStep at h
  revert h
  cases s.sheet with
  | none => intro h; cases h
  | some sh =>
    intro h
    replace h :
        (if k % 170 % 10 * 24 + 24 < 256 ∧ k % 170 / 10 * 30 + 30 < 512 then
          some { s with
            sheet := some
              (compositeGlyph baseline g (k % 170 % 10 * 24)
                (k % 170 / 10 * 30) sh) }
        else none) = some s' := h
    by_cases hb : k % 170 % 10 * 24 + 24 < 256 ∧ k % 170 / 10 * 30 + 30 < 512
    · rw [if_pos hb] at h
      cases h
      rfl
    · rw [if_neg hb] at h
      cases h

/-- `entryStep` preserves the width-range invariant. -/
theorem entryStep_widthsOK (ops : ExternalOps)
    (load : Nat → Option GlyphRender) (baseline : Int)
    (st : Option BuildState) (e : CharMapEntry)
    (h : WidthsOK st) : WidthsOK (entryStep ops load baseline st e) := by
  intro s' hs' w hw
  cases st with
  | none => simp [entryStep] at hs'
  | some s =>
    unfold entryStep at hs'
    revert hs'
    cases hld : load e.faceIndex with
    | none =>
      intro hs'
      cases hs'
      exact h _ rfl w hw
    | some g =>
      intro hs'
      have hwidths := compositeStep_widths _ _ _ _ _ hs'
      rw [rolloverStep_widths] at hwidths
      rw [hwidths] at hw
      rcases List.mem_append.mp hw with hw1 | hw2
      · exact h s rfl w hw1
      · rw [List.mem_singleton.mp hw2]; exact mkWidth_inRange g

/-- `glyphStep` preserves the width-range invariant. -/
theorem glyphStep_widthsOK (ops : ExternalOps)
    (load : Nat → Option GlyphRender) (m : List CharMapEntry)
    (baseline : Int) (st : Option BuildState) (c : Nat)
    (h : WidthsOK st) : WidthsOK (glyphStep ops load m baseline st c) :=
  entryStep_widthsOK ops load baseline st _ h

/-- Any fold preserves `WidthsOK` if its step does. -/
theorem foldl_widthsOK {α : Type} (f : Option BuildState → α → Option BuildState)
    (hf : ∀ st a, WidthsOK st → WidthsOK (f st a)) :
    ∀ (l : List α) (st : Option BuildState),
      WidthsOK st → WidthsOK (l.foldl f st) := by
  intro l
  induction l with
  | nil => intro st h; exact h
  | cons a l ih => intro st h; exact ih (f st a) (hf st a h)

/-- Every width entry of a completed build is in range. -/
theorem buildAtlas_widthsOK (ops : ExternalOps)
    (load : Nat → Option GlyphRender) (m : List CharMapEntry)
    (baseline : Int) (cmaps : List CMAP) (s : BuildState)
    (h : buildAtlas ops load m baseline cmaps = some s) :
    ∀ w ∈ s.widths, WidthInRange w := by
  have hloop : WidthsOK (cmaps.foldl
      (fun st cmap =>
        (List.range' cmap.codeBegin (cmap.codeEnd + 1 - cmap.codeBegin)).foldl
          (glyphStep ops load m baseline) st)
      (some ⟨[], none, 0, []⟩)) := by
    refine foldl_widthsOK _ ?_ cmaps _ ?_
    · intro st cmap hst
      exact foldl_widthsOK _ (glyphStep_widthsOK ops load m baseline) _ st hst
    · intro t ht w hw
      cases ht
      simp at hw
  revert h
  unfold buildAtlas
  revert hloop
  cases hres : cmaps.foldl
      (fun st cmap =>
        (List.range' cmap.codeBegin (cmap.codeEnd + 1 - cmap.codeBegin)).foldl
          (glyphStep ops load m baseline) st)
      (some ⟨[], none, 0, []⟩) with
  | none => intro _ h; exact absurd h (by simp)
  | some t =>
    intro hloop h
    replace h : some (flushSheet ops t) = some s := h
    cases h
    have hwid : (flushSheet ops t).widths = t.widths := by
      unfold flushSheet
      cases t.sheet <;> rfl
    rw [hwid]
    exact hloop _ rfl

/-- C6: decoding the serialized width-block bytes as consecutive 3-byte
`(left, glyphWidth, charWidth)` entries in glyph-index order reproduces
exactly the `CharWidthInfo` triples recorded during construction: every
recorded triple (a `mkWidth` image) lies in the `int8`/`uint8` field
ranges, and on such triples `decodeWidths` inverts `encodeWidths` (the
byte production used by the CWDH section). -/
theorem width_roundtrip :
    (∀ g, WidthInRange (mkWidth g)) ∧
    (∀ ops load m baseline cmaps s,
      buildAtlas ops load m baseline cmaps = some s →
        ∀ w ∈ s.widths, WidthInRange w) ∧
    (∀ ws, (∀ w ∈ ws, WidthInRange w) →
      decodeWidths (encodeWidths ws) = ws) :=
  ⟨mkWidth_inRange, buildAtlas_widthsOK, decodeWidths_encodeWidths⟩

/-- C6 witness: the round trip applied to two concrete in-range width
entries. -/
theorem width_roundtrip_witness :
    decodeWidths (encodeWidths [⟨-3, 5, 7⟩, ⟨120, 0, 255⟩]) =
      [⟨-3, 5, 7⟩, ⟨120, 0, 255⟩] :=
  width_roundtrip.2.2 [⟨-3, 5, 7⟩, ⟨120, 0, 255⟩] (by decide)

/-! ### C2 -/

/-- Inserting a key larger than every key of the map appends at the end. -/
theorem mapEmplace_append (acc : List CharMapEntry) (e : CharMapEntry)
    (h : ∀ x ∈ acc, x.code < e.code) : mapEmplace acc e = acc ++ [e] := by
  induction acc with
  | nil => rfl
  | cons x xs ih =>
    have hx : x.code < e.code := h x (by simp)
    unfold mapEmplace
    rw [if_neg (by omega), if_neg (by omega)]
    rw [ih (fun y hy => h y (by simp [hy]))]
    rfl

/-- `withIndices` basics: length, codes and indices. -/
theorem withIndices_map (k : Nat) (l : List (Nat × Nat)) :
    (withIndices k l).length = l.length ∧
    (withIndices k l).map (fun e => e.code) = l.map (fun p => p.1) ∧
    (withIndices k l).map (fun e => e.cfntIndex) = List.range' k l.length := by
  induction l generalizing k with
  | nil => exact ⟨rfl, rfl, rfl⟩
  | cons p ps ih =>
    obtain ⟨h1, h2, h3⟩ := ih (k + 1)
    refine ⟨by simp [withIndices, h1], by simp [withIndices, h2], ?_⟩
    simp only [withIndices, List.map_cons, h3, List.length_cons]
    rw [List.range'_succ]

/-- The indexing loop on a strictly ascending, in-range enumeration whose
codes exceed everything in the accumulator: it terminates and appends the
enumeration entries, indexed sequentially, to the accumulator. -/
theorem indexLoop_ascending (rest : List (Nat × Nat)) :
    ∀ (cur : Nat × Nat) (acc : List CharMapEntry) (k fuel : Nat),
      rest.length + 2 ≤ fuel →
      (∀ p ∈ cur :: rest, 1 ≤ p.1 ∧ p.1 < 0xFFFF) →
      List.Chain' (fun a b => a.1 < b.1) (cur :: rest) →
      (∀ x ∈ acc, x.code < cur.1) →
      k + rest.length < 0xFFFF →
      indexLoop fuel cur rest acc k =
        .done (acc ++ withIndices k (cur :: rest)) := by
  induction rest with
  | nil =>
    intro cur acc k fuel hfuel hrange _ hacc hk
    obtain ⟨f, rfl⟩ : ∃ f, fuel = f + 2 := ⟨fuel - 2, by omega⟩
    obtain ⟨h1, h2⟩ := hrange cur (by simp)
    show indexLoop (f + 1 + 1) cur [] acc k = _
    unfold indexLoop
    rw [if_neg (by omega), if_neg (by omega), if_neg (by omega)]
    simp only
    rw [mapEmplace_append acc _ hacc]
    show indexLoop (f + 1) (0, 0) [] _ (k + 1) = _
    unfold indexLoop
    rw [if_pos rfl]
    rfl
  | cons q qs ih =>
    intro cur acc k fuel hfuel hrange hchain hacc hk
    obtain ⟨f, rfl⟩ : ∃ f, fuel = f + 1 := ⟨fuel - 1, by omega⟩
    obtain ⟨h1, h2⟩ := hrange cur (by simp)
    unfold indexLoop
    rw [if_neg (by omega), if_neg (by omega), if_neg (by omega)]
    simp only
    rw [mapEmplace_append acc _ hacc]
    have hlt : cur.1 < q.1 := (List.chain'_cons.mp hchain).1
    have hstep := ih q (acc ++ [⟨cur.1, cur.2, k⟩]) (k + 1) f
      (by simp only [List.length_cons] at hfuel; omega)
      (fun p hp => hrange p (List.mem_cons_of_mem cur hp))
      (List.chain'_cons.mp hchain).2
      (by
        intro x hx
        rcases List.mem_append.mp hx with hx1 | hx2
        · exact lt_trans (hacc x hx1) hlt
        · rw [List.mem_singleton.mp hx2]
          exact hlt)
      (by simp only [List.length_cons] at hk ⊢; omega)
    rw [hstep]
    show _ = LoopResult.done (acc ++ withIndices k (cur :: q :: qs))
    simp [withIndices]

/-- C2 counterexample: the rasterizer enumeration `(0x43, _), (0x41, _)`
(two in-range code points, descending order) yields a face map whose
glyph indices are `1, 0` in ascending code order — not monotonically
non-decreasing with ascending code point, because indices are assigned in
enumeration order at insertion, not in a second pass over the ordered
map. -/
theorem glyphIndex_order_counterexample :
    buildFaceMap [(0x43, 0), (0x41, 0)] 3 =
      .done [⟨0x41, 0, 1⟩, ⟨0x43, 0, 0⟩] ∧
    ¬ goodIndices [⟨0x41, 0, 1⟩, ⟨0x43, 0, 0⟩] := by
  constructor
  · rfl
  · decide

/-- C2 (amended): when the enumeration is strictly ascending in code
point (as FreeType's `FT_Get_First_Char`/`FT_Get_Next_Char` iteration
is), with in-range codes and at most `0xFFFF` entries, the face map lists
the enumerated codes in order with glyph indices `0, 1, 2, …` — unique,
dense from 0, and monotonically increasing with ascending code point.
For other enumeration orders the property fails (see the
counterexample), because each index is consumed at insertion time. -/
theorem glyphIndex_assignment_ascending (enum : List (Nat × Nat))
    (hrange : ∀ p ∈ enum, 1 ≤ p.1 ∧ p.1 < 0xFFFF)
    (hasc : List.Chain' (fun a b => a.1 < b.1) enum)
    (hcount : enum.length ≤ 0xFFFF) :
    buildFaceMap enum (enum.length + 1) = .done (withIndices 0 enum) ∧
    goodIndices (withIndices 0 enum) ∧
    (withIndices 0 enum).map (fun e => e.code) =
      enum.map (fun p => p.1) := by
  obtain ⟨hlen, hcodes, hidx⟩ := withIndices_map 0 enum
  refine ⟨?_, ?_, hcodes⟩
  · match enum, hrange, hasc, hcount with
    | [], _, _, _ => rfl
    | p :: ps, hrange, hasc, hcount =>
      show indexLoop (ps.length + 2) p ps [] 0 = _
      rw [indexLoop_ascending ps p [] 0 (ps.length + 2) (by omega) hrange hasc
        (by simp) (by simp at hcount; omega)]
      rfl
  · unfold goodIndices
    rw [hidx, hlen]
    rw [List.range_eq_range']

/-- C2 witness: the ascending two-character enumeration `0x41, 0x42`
yields the face map with glyph indices 0 and 1 in code order. -/
theorem glyphIndex_assignment_ascending_witness :
    buildFaceMap [(0x41, 5), (0x42, 6)] 3 =
      .done (withIndices 0 [(0x41, 5), (0x42, 6)]) ∧
    goodIndices (withIndices 0 [(0x41, 5), (0x42, 6)]) ∧
    (withIndices 0 [(0x41, 5), (0x42, 6)]).map (fun e => e.code) =
      [(0x41, 5), (0x42, 6)].map (fun p => p.1) :=
  glyphIndex_assignment_ascending [(0x41, 5), (0x42, 6)] (by decide)
    (List.chain'_cons.mpr ⟨by decide, List.chain'_singleton _⟩) (by decide)

/-! ### C3 -/

/-- A nonempty list's `getLast?` is its `getLastD`. -/
theorem getLast?_of_ne_nil (l : List CharMapEntry) (h : l ≠ []) :
    l.getLast? = some (l.getLastD ⟨0, 0, 0⟩) := by
  rw [List.getLastD_eq_getLast?]
  cases hx : l.getLast? with
  | none => exact absurd (List.getLast?_eq_none_iff.mp hx) h
  | some x => rfl

/-- A nonempty run's `headD` is preserved by appending. -/
theorem headD_append_ne_nil (l : List CharMapEntry) (e d : CharMapEntry)
    (h : l ≠ []) : (l ++ [e]).headD d = l.headD d := by
  cases l with
  | nil => exact absurd rfl h
  | cons a as => rfl

/-- The in-progress range of the coalescing loop closes to exactly the
`runRange` of the run it covers. -/
theorem range_closed (run : List CharMapEntry) (prev : CharMapEntry)
    (cur : CMAP)
    (hb : cur.codeBegin = (run.headD ⟨0, 0, 0⟩).code)
    (hend : cur.codeEnd = prev.code)
    (hm : cur.mappingMethod = .direct)
    (hd : cur.data = .direct (run.headD ⟨0, 0, 0⟩).cfntIndex)
    (hlast : (run.getLastD ⟨0, 0, 0⟩).code = prev.code) :
    cur = runRange run := by
  rcases cur with ⟨cb, ce, mm, d⟩
  simp only at hb hend hm hd
  unfold runRange
  subst hb hend hm hd
  rw [← hlast]

/-- The coalescing loop emits exactly one `CMAP` per maximal consecutive
run: it equals `runRange` mapped over the run decomposition. -/
theorem coalesceAux_splitRuns (rest : List CharMapEntry) :
    ∀ (run : List CharMapEntry) (prev : CharMapEntry) (cur : CMAP),
      run ≠ [] →
      cur.codeBegin = (run.headD ⟨0, 0, 0⟩).code →
      cur.codeEnd = prev.code →
      cur.mappingMethod = .direct →
      cur.data = .direct (run.headD ⟨0, 0, 0⟩).cfntIndex →
      (run.getLastD ⟨0, 0, 0⟩).code = prev.code →
      coalesceAux cur rest = (splitRunsAux run prev rest).map runRange := by
  induction rest with
  | nil =>
    intro run prev cur hne hb hend hm hd hlast
    show [cur] = [runRange run]
    rw [range_closed run prev cur hb hend hm hd hlast]
  | cons e rest' ih =>
    intro run prev cur hne hb hend hm hd hlast
    have hhead := headD_append_ne_nil run e ⟨0, 0, 0⟩ hne
    unfold coalesceAux splitRunsAux
    by_cases hc : prev.code + 1 = e.code
    · rw [if_neg (by rw [hend]; omega), if_pos hc]
      exact ih (run ++ [e]) e { cur with codeEnd := e.code }
        (by simp)
        (by show cur.codeBegin = _; rw [hhead]; exact hb)
        rfl
        hm
        (by show cur.data = _; rw [hhead]; exact hd)
        (by rw [List.getLastD_concat])
    · rw [if_pos (by rw [hend]; omega), if_neg hc]
      rw [List.map_cons]
      rw [range_closed run prev cur hb hend hm hd hlast]
      rw [ih [e] e ⟨e.code, e.code, .direct, .direct e.cfntIndex⟩
        (by simp) rfl rfl rfl rfl rfl]

/-- The run decomposition flattens back to the original entry list. -/
theorem splitRunsAux_flatten (rest : List CharMapEntry) :
    ∀ run prev, (splitRunsAux run prev rest).flatten = run ++ rest := by
  induction rest with
  | nil => intro run prev; simp [splitRunsAux]
  | cons e rest' ih =>
    intro run prev
    unfold splitRunsAux
    by_cases hc : prev.code + 1 = e.code
    · rw [if_pos hc, ih (run ++ [e]) e]
      simp
    · rw [if_neg hc]
      show (run :: splitRunsAux [e] e rest').flatten = _
      rw [List.flatten_cons, ih [e] e]
      rfl

/-- Every emitted run is nonempty and consecutive (each code point is one
more than its predecessor). -/
theorem splitRunsAux_runs (rest : List CharMapEntry) :
    ∀ run prev, run ≠ [] →
      (run.getLastD ⟨0, 0, 0⟩).code = prev.code →
      run.Chain' consec →
      ∀ g ∈ splitRunsAux run prev rest, g ≠ [] ∧ g.Chain' consec := by
  induction rest with
  | nil =>
    intro run prev hne _ hchain g hg
    rw [List.mem_singleton.mp hg]
    exact ⟨hne, hchain⟩
  | cons e rest' ih =>
    intro run prev hne hlast hchain g hg
    revert hg
    unfold splitRunsAux
    by_cases hc : prev.code + 1 = e.code
    · rw [if_pos hc]
      intro hg
      refine ih (run ++ [e]) e (by simp) (by rw [List.getLastD_concat]) ?_ g hg
      refine List.chain'_append.mpr ⟨hchain, List.chain'_singleton e, ?_⟩
      intro x hx y hy
      rw [getLast?_of_ne_nil run hne] at hx
      cases hx
      simp only [List.head?_cons, Option.mem_some_iff] at hy
      subst hy
      show _ + 1 = _
      omega
    · rw [if_neg hc]
      intro hg
      rcases List.mem_cons.mp hg with hg1 | hg2
      · subst hg1
        exact ⟨hne, hchain⟩
      · exact ih [e] e (by simp) rfl (List.chain'_singleton e) g hg2

/-- The first run of the decomposition starts with the in-progress run's
first entry. -/
theorem splitRunsAux_head (rest : List CharMapEntry) :
    ∀ run prev, run ≠ [] →
      ((splitRunsAux run prev rest).headD []).headD ⟨0, 0, 0⟩ =
        run.headD ⟨0, 0, 0⟩ := by
  induction rest with
  | nil => intro run prev _; rfl
  | cons e rest' ih =>
    intro run prev hne
    unfold splitRunsAux
    by_cases hc : prev.code + 1 = e.code
    · rw [if_pos hc, ih (run ++ [e]) e (by simp)]
      exact headD_append_ne_nil run e ⟨0, 0, 0⟩ hne
    · rw [if_neg hc]
      rfl

/-- Adjacent runs of the decomposition are separated by a code-point
gap. -/
theorem splitRunsAux_gaps (rest : List CharMapEntry) :
    ∀ run prev, run ≠ [] →
      (run.getLastD ⟨0, 0, 0⟩).code = prev.code →
      List.Chain' runGap (splitRunsAux run prev rest) := by
  induction rest with
  | nil => intro run prev _ _; exact List.chain'_singleton run
  | cons e rest' ih =>
    intro run prev hne hlast
    unfold splitRunsAux
    by_cases hc : prev.code + 1 = e.code
    · rw [if_pos hc]
      exact ih (run ++ [e]) e (by simp) (by rw [List.getLastD_concat])
    · rw [if_neg hc]
      refine List.chain'_cons'.mpr ⟨?_, ih [e] e (by simp) rfl⟩
      intro y hy
      revert hy
      cases hres : splitRunsAux [e] e rest' with
      | nil => intro hy; simp at hy
      | cons g gs =>
        intro hy
        simp only [List.head?_cons, Option.mem_some_iff] at hy
        subst hy
        have hg := splitRunsAux_head rest' [e] e (by simp)
        rw [hres] at hg
        have hge : g.headD ⟨0, 0, 0⟩ = e := hg
        show ¬ (run.getLastD ⟨0, 0, 0⟩).code + 1 = (g.headD ⟨0, 0, 0⟩).code
        rw [hge]
        omega

/-- The coalescer output is the run decomposition, range by range. -/
theorem coalesce_eq_splitRuns (m : List CharMapEntry) :
    coalesce m = (splitRuns m).map runRange := by
  cases m with
  | nil => rfl
  | cons e rest =>
    exact coalesceAux_splitRuns rest [e] e
      ⟨e.code, e.code, .direct, .direct e.cfntIndex⟩
      (by simp) rfl rfl rfl rfl rfl

/-- The run decomposition partitions the face map. -/
theorem splitRuns_flatten (m : List CharMapEntry) :
    (splitRuns m).flatten = m := by
  cases m with
  | nil => rfl
  | cons e rest => exact splitRunsAux_flatten rest [e] e

/-- Every run of the decomposition is nonempty and consecutive. -/
theorem splitRuns_wf (m : List CharMapEntry) :
    ∀ g ∈ splitRuns m, g ≠ [] ∧ g.Chain' consec := by
  cases m with
  | nil => exact fun g hg => absurd hg (List.not_mem_nil g)
  | cons e rest =>
    exact splitRunsAux_runs rest [e] e (by simp) rfl
      (List.chain'_singleton e)

/-- C3: the range coalescer emits exactly one `CodeRange` per maximal run
of consecutive code points, spanning exactly that run, with `Direct`
payload equal to the first code point's glyph index; a new range begins
exactly at each non-consecutive adjacent pair.  (`splitRuns` is the
maximal-consecutive-run decomposition: it flattens back to the input,
each run is nonempty and internally consecutive — so, because glyph
indices are assigned in the same ascending order, with contiguous glyph
indices — and adjacent runs are separated by gaps.) -/
theorem coalesce_runs (m : List CharMapEntry) :
    coalesce m = (splitRuns m).map runRange ∧
    (splitRuns m).flatten = m ∧
    (∀ g ∈ splitRuns m, g ≠ [] ∧ g.Chain' consec) ∧
    List.Chain' runGap (splitRuns m) := by
  refine ⟨coalesce_eq_splitRuns m, splitRuns_flatten m, splitRuns_wf m, ?_⟩
  cases m with
  | nil => exact List.chain'_nil
  | cons e rest => exact splitRunsAux_gaps rest [e] e (by simp) rfl

/-- C3 witness: on the concrete face map `{0x41↦0, 0x42↦1, 0x44↦2}` the
coalescer emits the two ranges of the run decomposition —
`[0x41–0x42 base 0]` and `[0x44–0x44 base 2]`. -/
theorem coalesce_runs_witness :
    coalesce [⟨0x41, 0, 0⟩, ⟨0x42, 0, 1⟩, ⟨0x44, 0, 2⟩] =
      (splitRuns [⟨0x41, 0, 0⟩, ⟨0x42, 0, 1⟩, ⟨0x44, 0, 2⟩]).map runRange ∧
    [⟨0x41, 0, 0⟩, ⟨0x42, 0, 1⟩] ≠ ([] : List CharMapEntry) ∧
    List.Chain' consec [⟨0x41, 0, 0⟩, ⟨0x42, 0, 1⟩] :=
  ⟨(coalesce_runs [⟨0x41, 0, 0⟩, ⟨0x42, 0, 1⟩, ⟨0x44, 0, 2⟩]).1,
    (coalesce_runs [⟨0x41, 0, 0⟩, ⟨0x42, 0, 1⟩, ⟨0x44, 0, 2⟩]).2.2.1
      [⟨0x41, 0, 0⟩, ⟨0x42, 0, 1⟩] (by decide)⟩

/-! ### C9 -/

/-- Once the whole buffer is flushed the loop reports completion and
writes nothing further, whatever fuel remains. -/
theorem writeLoop_done (resp : Nat → Nat × Bool) (buf : List Nat)
    (fuel offset n : Nat) (fb : List Nat) (h : buf.length ≤ offset) :
    writeLoop resp buf fuel offset n fb = (true, fb) := by
  cases fuel with
  | zero => simp [writeLoop, h]
  | succ f => simp [writeLoop, Nat.not_lt.mpr h]

/-- The loop's result does not depend on the fuel, as long as the fuel
covers the remaining byte count: each surviving iteration advances the
offset by at least one byte. -/
theorem writeLoop_fuel (resp : Nat → Nat × Bool) (buf : List Nat) :
    ∀ (fuel fuel' offset n : Nat) (fb : List Nat),
      buf.length - offset ≤ fuel → buf.length - offset ≤ fuel' →
      writeLoop resp buf fuel offset n fb =
        writeLoop resp buf fuel' offset n fb := by
  intro fuel
  induction fuel with
  | zero =>
    intro fuel' offset n fb h h'
    have hle : buf.length ≤ offset := by omega
    rw [writeLoop_done resp buf 0 offset n fb hle,
      writeLoop_done resp buf fuel' offset n fb hle]
  | succ f ih =>
    intro fuel' offset n fb h h'
    by_cases hofs : offset < buf.length
    · obtain ⟨f', rfl⟩ : ∃ f', fuel' = f' + 1 := ⟨fuel' - 1, by omega⟩
      show writeLoop resp buf (f + 1) offset n fb =
        writeLoop resp buf (f' + 1) offset n fb
      unfold writeLoop
      rw [if_pos hofs, if_pos hofs]
      by_cases hguard : min (resp n).1 (buf.length - offset) ≠
          buf.length - offset ∧
          (min (resp n).1 (buf.length - offset) = 0 ∨ (resp n).2)
      · rw [if_pos hguard, if_pos hguard]
      · rw [if_neg hguard, if_neg hguard]
        have hrc : 1 ≤ min (resp n).1 (buf.length - offset) ∨
            min (resp n).1 (buf.length - offset) = buf.length - offset := by
          by_cases hA : min (resp n).1 (buf.length - offset) =
              buf.length - offset
          · right; exact hA
          · left
            rcases Nat.eq_zero_or_pos (min (resp n).1 (buf.length - offset))
              with h0 | h1
            · exact absurd ⟨hA, Or.inl h0⟩ hguard
            · exact h1
        apply ih
        · rcases hrc with h1 | h1 <;> omega
        · rcases hrc with h1 | h1 <;> omega
    · rw [writeLoop_done resp buf (f + 1) offset n fb (by omega),
        writeLoop_done resp buf fuel' offset n fb (by omega)]

/-- When the loop completes, the bytes handed to `fwrite` are the
accumulated prefix followed by exactly the unwritten suffix: the retries
reassemble the whole buffer with no byte duplicated or dropped. -/
theorem writeLoop_complete (resp : Nat → Nat × Bool) (buf : List Nat) :
    ∀ (fuel offset n : Nat) (fb : List Nat),
      (writeLoop resp buf fuel offset n fb).1 = true →
      (writeLoop resp buf fuel offset n fb).2 = fb ++ buf.drop offset := by
  intro fuel
  induction fuel with
  | zero =>
    intro offset n fb h
    have hle : buf.length ≤ offset := of_decide_eq_true h
    show fb = fb ++ buf.drop offset
    rw [List.drop_eq_nil_of_le hle]
    simp
  | succ f ih =>
    intro offset n fb h
    by_cases hofs : offset < buf.length
    · simp only [writeLoop] at h ⊢
      rw [if_pos hofs] at h ⊢
      by_cases hguard : min (resp n).1 (buf.length - offset) ≠
          buf.length - offset ∧
          (min (resp n).1 (buf.length - offset) = 0 ∨ (resp n).2)
      · rw [if_pos hguard] at h
        cases h
      · rw [if_neg hguard] at h ⊢
        rw [ih _ _ _ h]
        rw [List.append_assoc]
        congr 1
        have hdd : buf.drop (offset + min (resp n).1 (buf.length - offset)) =
            (buf.drop offset).drop (min (resp n).1 (buf.length - offset)) := by
          rw [List.drop_drop]
        rw [hdd, List.take_append_drop]
    · rw [writeLoop_done resp buf (f + 1) offset n fb (by omega)]
      rw [List.drop_eq_nil_of_le (by omega)]
      simp

/-- C9: `serialize`'s persistence tail returns `true` exactly when the
destination opened, the retry loop flushed the whole buffer without an
unrecoverable write error, and the close succeeded; on completion the
retries (each passing the remaining unwritten suffix) hand `fwrite`
exactly the buffer's bytes; and the fuel bound of the loop model is
semantically irrelevant once it covers the remaining byte count. -/
theorem persist_spec :
    (∀ (openOk : Bool) resp (closeOk : Bool) (buf : List Nat),
      persist openOk resp closeOk buf = true ↔
        (openOk = true ∧ (writeLoop resp buf buf.length 0 0 []).1 = true ∧
          closeOk = true)) ∧
    (∀ resp (buf : List Nat),
      (writeLoop resp buf buf.length 0 0 []).1 = true →
        (writeLoop resp buf buf.length 0 0 []).2 = buf) ∧
    (∀ resp (buf : List Nat) (fuel fuel' offset n : Nat) (fb : List Nat),
      buf.length - offset ≤ fuel → buf.length - offset ≤ fuel' →
      writeLoop resp buf fuel offset n fb =
        writeLoop resp buf fuel' offset n fb) := by
  refine ⟨?_, ?_, ?_⟩
  · intro openOk resp closeOk buf
    unfold persist
    cases openOk <;> cases closeOk <;>
      cases hw : (writeLoop resp buf buf.length 0 0 []).1 <;> simp [hw]
  · intro resp buf h
    simpa using writeLoop_complete resp buf buf.length 0 0 [] h
  · intro resp buf fuel fuel' offset n fb h h'
    exact writeLoop_fuel resp buf fuel fuel' offset n fb h h'

/-- C9 witness: a destination that accepts two bytes per call flushes the
three-byte buffer `[9, 8, 7]` across two partial writes; `persist`
returns `true` and the bytes handed to `fwrite` are exactly the buffer. -/
theorem persist_spec_witness :
    persist true (fun _ => (2, false)) true [9, 8, 7] = true ∧
    (writeLoop (fun _ => (2, false)) [9, 8, 7] 3 0 0 []).2 = [9, 8, 7] :=
  ⟨(persist_spec.1 true (fun _ => (2, false)) true [9, 8, 7]).mpr
      ⟨rfl, by decide, rfl⟩,
    persist_spec.2.1 (fun _ => (2, false)) [9, 8, 7] (by decide)⟩

/-! ### C1 -/

/-- The CFNT container header is `0x14` bytes. -/
theorem cfntHeader_length (a b : Nat) : (cfntHeader a b).length = 0x14 := by
  simp [cfntHeader, tagCFNT, le16, le32]

/-- The FINF section is `0x20` bytes. -/
theorem finfSection_length (f : BCFNT) (a b c : Nat) :
    (finfSection f a b c).length = 0x20 := by
  simp [finfSection, tagFINF, le16, le32, u8, u8i]

/-- The TGLP section is `0x20` bytes. -/
theorem tglpSection_length (f : BCFNT) (a : Nat) :
    (tglpSection f a).length = 0x20 := by
  simp [tglpSection, tagTGLP, le16, le32, u8, u8i]

/-- The width data is 3 bytes per entry. -/
theorem encodeWidths_length (ws : List CharWidthInfo) :
    (encodeWidths ws).length = 3 * ws.length := by
  induction ws with
  | nil => rfl
  | cons w ws ih =>
    have hrec : encodeWidths (w :: ws) = widthBytes w ++ encodeWidths ws := by
      show ws.foldl _ ([] ++ widthBytes w) = _
      rw [encodeWidths_acc]
      simp
    rw [hrec]
    simp [widthBytes, u8, u8i, ih]
    ring

/-- The CWDH section is `0x10` header bytes plus the width data. -/
theorem cwdhSection_length (f : BCFNT) :
    (cwdhSection f).length = 0x10 + 3 * f.widths.length := by
  simp [cwdhSection, tagCWDH, le16, le32, encodeWidths_length]
  omega

/-- On an all-`Direct` list the size loop yields `0x16` per section. -/
theorem cmapSizes_direct (cs : List CMAP) (h : ∀ c ∈ cs, directShaped c) :
    cmapSizes cs = some (cs.map fun _ => 0x14 + 0x2) := by
  induction cs with
  | nil => rfl
  | cons c cs ih =>
    obtain ⟨hm, v, hd⟩ := h c (by simp)
    unfold cmapSizes cmapFileSize
    rw [hm]
    rw [ih fun c hc => h c (by simp [hc])]
    rfl

/-- Summing the constant per-section size. -/
theorem sum_const_sizes (cs : List CMAP) :
    (cs.map fun _ => (0x14 + 0x2 : Nat)).sum = 0x16 * cs.length := by
  induction cs with
  | nil => rfl
  | cons c cs ih => simp [ih]; ring

/-- On an all-`Direct` atlas the layout computation succeeds, with the
offsets of the fixed-size sections and the width- and CMAP-dependent
tail. -/
theorem computeLayout_direct (f : BCFNT)
    (h : ∀ c ∈ f.cmaps, directShaped c) :
    computeLayout f = some
      { finfOffset := 0x14
        tglpOffset := 0x14 + 0x20
        cwdhOffset := 0x14 + 0x20 + 0x20
        cmapOffset := 0x14 + 0x20 + 0x20 + (0x10 + 3 * f.widths.length)
        sheetOffset := 0x14 + 0x20 + 0x20 + (0x10 + 3 * f.widths.length) +
          0x16 * f.cmaps.length
        fileSize := 0x14 + 0x20 + 0x20 + (0x10 + 3 * f.widths.length) +
          0x16 * f.cmaps.length + f.sheetData.length
        numBlocks := 3 + f.cmaps.length } := by
  unfold computeLayout
  rw [cmapSizes_direct f.cmaps h]
  show some
      ({ finfOffset := 0x14
         tglpOffset := 0x14 + 0x20
         cwdhOffset := 0x14 + 0x20 + 0x20
         cmapOffset := 0x14 + 0x20 + 0x20 + (0x10 + 3 * f.widths.length)
         sheetOffset := 0x14 + 0x20 + 0x20 + (0x10 + 3 * f.widths.length) +
           (f.cmaps.map fun _ => (0x14 + 0x2 : Nat)).sum
         fileSize := 0x14 + 0x20 + 0x20 + (0x10 + 3 * f.widths.length) +
           (f.cmaps.map fun _ => (0x14 + 0x2 : Nat)).sum + f.sheetData.length
         numBlocks := 3 + f.cmaps.length } : Layout) = _
  rw [sum_const_sizes]

/-- A `Direct` CMAP record emits a `0x16`-byte section. -/
theorem cmapSection_direct (c : CMAP) (v : Nat) (nextOff : Nat)
    (hm : c.mappingMethod = .direct) (hd : c.data = .direct v) :
    cmapSection c nextOff =
      some (tagCMAP ++ le32 (0x14 + 0x2) ++ le16 c.codeBegin ++
        le16 c.codeEnd ++ le16 c.mappingMethod.tag ++ le16 0x0 ++
        le32 nextOff ++ le16 v) ∧
    (tagCMAP ++ le32 (0x14 + 0x2) ++ le16 c.codeBegin ++ le16 c.codeEnd ++
      le16 c.mappingMethod.tag ++ le16 0x0 ++ le32 nextOff ++
      le16 v).length = 0x16 := by
  constructor
  · unfold cmapSection
    rw [hm, hd]
  · simp [tagCMAP, le16, le32]

/-- The CMAP loop on all-`Direct` records with a correctly positioned
buffer: every per-iteration assert holds and the buffer grows by exactly
`0x16` bytes per record. -/
theorem writeCMAPs_direct (cs : List CMAP) :
    ∀ (off : Nat) (out : List Nat),
      (∀ c ∈ cs, directShaped c) →
      out.length = off →
      off + 0x16 * cs.length < 2 ^ 32 →
      ∃ out', writeCMAPs cs off out = some out' ∧
        out'.length = off + 0x16 * cs.length := by
  induction cs with
  | nil =>
    intro off out _ hlen _
    exact ⟨out, rfl, by simpa using hlen⟩
  | cons c cs ih =>
    intro off out hdir hlen hbound
    obtain ⟨hm, v, hd⟩ := hdir c (by simp)
    obtain ⟨hsec, hseclen⟩ := cmapSection_direct c v
      (if cs.isEmpty then 0 else off + (0x14 + 0x2) + 8) hm hd
    unfold writeCMAPs
    rw [if_pos (by rw [hlen, Nat.mod_eq_of_lt (by simp at hbound; omega)])]
    rw [hsec]
    obtain ⟨out', hrec, hlen'⟩ := ih (off + (0x14 + 0x2))
      (out ++
        (tagCMAP ++ le32 (0x14 + 0x2) ++ le16 c.codeBegin ++ le16 c.codeEnd ++
          le16 c.mappingMethod.tag ++ le16 0x0 ++
          le32 (if cs.isEmpty then 0 else off + (0x14 + 0x2) + 8) ++
          le16 v))
      (fun c hc => hdir c (by simp [hc]))
      (by rw [List.length_append, hlen, hseclen])
      (by simp at hbound ⊢; omega)
    refine ⟨out', hrec, ?_⟩
    rw [hlen']
    simp only [List.length_cons]
    omega

/-- `checkLen` passes a buffer whose length is the (in-range) offset. -/
theorem checkLen_pass (out : List Nat) (off : Nat)
    (hlen : out.length = off) (hoff : off < 2 ^ 32) :
    checkLen out off = some out := by
  unfold checkLen
  rw [if_pos (by rw [hlen, Nat.mod_eq_of_lt hoff])]

/-- The coalescer only ever produces `Direct` records with matching
payloads. -/
theorem coalesceAux_direct (rest : List CharMapEntry) :
    ∀ (cur : CMAP), directShaped cur →
      ∀ c ∈ coalesceAux cur rest, directShaped c := by
  induction rest with
  | nil =>
    intro cur hcur c hc
    rw [List.mem_singleton.mp hc]
    exact hcur
  | cons e rest' ih =>
    intro cur hcur c hc
    revert hc
    unfold coalesceAux
    split
    · intro hc
      rcases List.mem_cons.mp hc with hc1 | hc2
      · subst hc1; exact hcur
      · exact ih _ ⟨rfl, e.cfntIndex, rfl⟩ c hc2
    · intro hc
      exact ih { cur with codeEnd := e.code }
        ⟨hcur.1, hcur.2.choose, hcur.2.choose_spec⟩ c hc

/-- All ranges the coalescer builds are `Direct`-shaped. -/
theorem coalesce_direct (m : List CharMapEntry) :
    ∀ c ∈ coalesce m, directShaped c := by
  cases m with
  | nil => intro c hc; exact absurd hc (List.not_mem_nil c)
  | cons e rest =>
    exact coalesceAux_direct rest ⟨e.code, e.code, .direct, .direct e.cfntIndex⟩
      ⟨rfl, e.cfntIndex, rfl⟩

/-- The section-emission chain succeeds — every layout assert holds at
the moment its section is written — whenever the layout satisfies the
offset equations of `computeLayout` and the file fits in a `uint32`. -/
theorem serializeBody_direct (f : BCFNT) (L : Layout)
    (hdir : ∀ c ∈ f.cmaps, directShaped c)
    (h1 : L.finfOffset = 0x14)
    (h2 : L.tglpOffset = 0x14 + 0x20)
    (h3 : L.cwdhOffset = 0x14 + 0x20 + 0x20)
    (h4 : L.cmapOffset = 0x14 + 0x20 + 0x20 + (0x10 + 3 * f.widths.length))
    (h5 : L.sheetOffset = L.cmapOffset + 0x16 * f.cmaps.length)
    (h6 : L.fileSize = L.sheetOffset + f.sheetData.length)
    (hbound : L.fileSize < 2 ^ 32) :
    ∃ buf, serializeBody f L = some buf ∧ buf.length = L.fileSize := by
  have hb4 : L.cmapOffset + 0x16 * f.cmaps.length < 2 ^ 32 := by omega
  unfold serializeBody
  rw [checkLen_pass (cfntHeader L.fileSize L.numBlocks) L.finfOffset
    (by rw [cfntHeader_length, h1]) (by omega), Option.some_bind]
  rw [checkLen_pass _ L.tglpOffset
    (by rw [List.length_append, cfntHeader_length, finfSection_length, h2])
    (by omega), Option.some_bind]
  rw [checkLen_pass _ L.cwdhOffset
    (by
      rw [List.length_append, List.length_append, cfntHeader_length,
        finfSection_length, tglpSection_length, h3])
    (by omega), Option.some_bind]
  obtain ⟨out5, hw, hwlen⟩ := writeCMAPs_direct f.cmaps L.cmapOffset
    (cfntHeader L.fileSize L.numBlocks ++
      finfSection f L.tglpOffset L.cwdhOffset L.cmapOffset ++
      tglpSection f L.sheetOffset ++ cwdhSection f)
    hdir
    (by
      rw [List.length_append, List.length_append, List.length_append,
        cfntHeader_length, finfSection_length, tglpSection_length,
        cwdhSection_length, h4])
    hb4
  rw [hw, Option.some_bind]
  rw [checkLen_pass out5 L.sheetOffset (by rw [hwlen, h5]) (by omega),
    Option.some_bind]
  rw [checkLen_pass (out5 ++ f.sheetData) L.fileSize
    (by rw [List.length_append, hwlen, ← h5, h6]) hbound]
  exact ⟨out5 ++ f.sheetData, rfl,
    by rw [List.length_append, hwlen, ← h5, h6]⟩

/-- C1: for every constructed atlas, serialization succeeds with every
layout assertion satisfied — the coalescer only produces `Direct` ranges
(first conjunct), and on any atlas whose ranges are all `Direct` and
whose raw size fits a `uint32`, the layout computation and every
`checkLen` checkpoint succeed and the final buffer's length is exactly
the precomputed total file size (second conjunct). -/
theorem serialize_layout_invariant :
    (∀ (m : List CharMapEntry), ∀ c ∈ coalesce m, directShaped c) ∧
    (∀ f : BCFNT, (∀ c ∈ f.cmaps, directShaped c) →
      0x64 + 3 * f.widths.length + 0x16 * f.cmaps.length +
        f.sheetData.length < 2 ^ 32 →
      ∃ L buf, computeLayout f = some L ∧ serializeBuf f = some buf ∧
        buf.length = L.fileSize ∧
        L.fileSize = 0x64 + 3 * f.widths.length +
          0x16 * f.cmaps.length + f.sheetData.length) := by
  refine ⟨coalesce_direct, ?_⟩
  intro f hdir hbound
  have hL := computeLayout_direct f hdir
  obtain ⟨buf, hbody, hblen⟩ := serializeBody_direct f
    { finfOffset := 0x14
      tglpOffset := 0x14 + 0x20
      cwdhOffset := 0x14 + 0x20 + 0x20
      cmapOffset := 0x14 + 0x20 + 0x20 + (0x10 + 3 * f.widths.length)
      sheetOffset := 0x14 + 0x20 + 0x20 + (0x10 + 3 * f.widths.length) +
        0x16 * f.cmaps.length
      fileSize := 0x14 + 0x20 + 0x20 + (0x10 + 3 * f.widths.length) +
        0x16 * f.cmaps.length + f.sheetData.length
      numBlocks := 3 + f.cmaps.length }
    hdir rfl rfl rfl rfl rfl rfl
    (by
      show 0x14 + 0x20 + 0x20 + (0x10 + 3 * f.widths.length) +
        0x16 * f.cmaps.length + f.sheetData.length < 2 ^ 32
      omega)
  refine ⟨_, buf, hL, ?_, hblen, ?_⟩
  · unfold serializeBuf
    rw [hL, Option.some_bind]
    exact hbody
  · show 0x14 + 0x20 + 0x20 + (0x10 + 3 * f.widths.length) +
      0x16 * f.cmaps.length + f.sheetData.length = _
    omega

/-- C1 witness: the empty atlas lays out and serializes to exactly its
precomputed 100-byte file. -/
theorem serialize_layout_invariant_witness :
    ∃ L buf, computeLayout emptyBCFNT = some L ∧
      serializeBuf emptyBCFNT = some buf ∧ buf.length = L.fileSize ∧
      L.fileSize = 0x64 + 3 * emptyBCFNT.widths.length +
        0x16 * emptyBCFNT.cmaps.length + emptyBCFNT.sheetData.length :=
  serialize_layout_invariant.2 emptyBCFNT
    (fun c hc => absurd hc (List.not_mem_nil c)) (by decide)

/-! ### C5 -/

/-- A consecutive run's codes are the interval starting at its head, and
its last code is determined by its length. -/
theorem run_map_code (t : List CharMapEntry) :
    ∀ (a : CharMapEntry), (a :: t).Chain' consec →
      (a :: t).map (fun e => e.code) = List.range' a.code (t.length + 1) ∧
      ((a :: t).getLastD ⟨0, 0, 0⟩).code + 1 = a.code + (t.length + 1) := by
  induction t with
  | nil =>
    intro a _
    constructor
    · rfl
    · rfl
  | cons b t ih =>
    intro a hchain
    obtain ⟨hab, hbt⟩ := List.chain'_cons.mp hchain
    obtain ⟨hmap, hlast⟩ := ih b hbt
    have hdflt : (a :: b :: t).getLastD ⟨0, 0, 0⟩ =
        (b :: t).getLastD ⟨0, 0, 0⟩ := by
      rw [List.getLastD_eq_getLast?, List.getLastD_eq_getLast?,
        List.getLast?_cons_cons]
    constructor
    · rw [List.map_cons, hmap, List.range'_succ]
      have hb : b.code = a.code + 1 := by
        show _ = _
        have : a.code + 1 = b.code := hab
        omega
      rw [hb]
      rfl
    · rw [hdflt]
      have : a.code + 1 = b.code := hab
      simp only [List.length_cons] at hlast ⊢
      omega

/-- The code interval spanned by a run's `runRange` is exactly the run's
code list. -/
theorem run_codes (g : List CharMapEntry) (hne : g ≠ [])
    (hchain : g.Chain' consec) :
    List.range' (runRange g).codeBegin
      ((runRange g).codeEnd + 1 - (runRange g).codeBegin) =
      g.map (fun e => e.code) := by
  cases g with
  | nil => exact absurd rfl hne
  | cons a t =>
    obtain ⟨hmap, hlast⟩ := run_map_code t a hchain
    show List.range' a.code
      (((a :: t).getLastD ⟨0, 0, 0⟩).code + 1 - a.code) = _
    rw [hmap]
    congr 1
    omega

/-- In a map with distinct codes, looking an entry's own code up finds
it. -/
theorem mapLookup_self (m : List CharMapEntry)
    (hnd : (m.map (fun e => e.code)).Nodup) :
    ∀ e ∈ m, mapLookup m e.code = some e := by
  induction m with
  | nil => intro e he; cases he
  | cons x xs ih =>
    intro e he
    rw [List.map_cons, List.nodup_cons] at hnd
    unfold mapLookup
    rcases List.mem_cons.mp he with rfl | hmem
    · rw [List.find?_cons_of_pos _ (by simp)]
    · have hx : ¬ x.code = e.code := by
        intro hxe
        exact hnd.1 (by rw [hxe]; exact List.mem_map_of_mem _ hmem)
      rw [List.find?_cons_of_neg _ (by simp [hx])]
      exact ih hnd.2 e hmem

/-- On a code-sorted face map, the doubly-nested loop over the coalesced
ranges visits exactly the map's entries, in map order, each with its own
`CharMap` record: it is the fold of `entryStep` over the map. -/
theorem loop_eq_entryFold (ops : ExternalOps)
    (load : Nat → Option GlyphRender) (m : List CharMapEntry)
    (baseline : Int)
    (hsorted : (m.map (fun e => e.code)).Chain' (· < ·)) :
    (coalesce m).foldl
      (fun st cmap =>
        (List.range' cmap.codeBegin (cmap.codeEnd + 1 - cmap.codeBegin)).foldl
          (glyphStep ops load m baseline) st)
      (some ⟨[], none, 0, []⟩) =
    m.foldl (entryStep ops load baseline) (some ⟨[], none, 0, []⟩) := by
  have hnd : (m.map (fun e => e.code)).Nodup :=
    (List.chain'_iff_pairwise.mp hsorted).imp Nat.ne_of_lt
  rw [coalesce_eq_splitRuns m, List.foldl_map]
  conv_rhs => rw [← splitRuns_flatten m, List.foldl_flatten]
  apply List.foldl_ext
  intro st g hg
  obtain ⟨hne, hchain⟩ := splitRuns_wf m g hg
  rw [run_codes g hne hchain, List.foldl_map]
  apply List.foldl_ext
  intro st' e he
  have hmem : e ∈ m := by
    rw [← splitRuns_flatten m]
    exact List.mem_flatten.mpr ⟨g, hg, he⟩
  unfold glyphStep
  rw [mapLookup_self m hnd e hmem]
  rfl

/-- Rollover at a multiple of 170: finalize any current sheet and start a
fresh one. -/
theorem rolloverStep_roll (ops : ExternalOps) (k : Nat) (s : BuildState)
    (hk : k % 170 = 0) :
    (s.sheet = none →
      rolloverStep ops k s = { s with sheet := some freshSheet }) ∧
    (∀ sh, s.sheet = some sh →
      rolloverStep ops k s =
        { s with
          sheetData := s.sheetData ++ appendSheetBytes ops sh
          numSheets := s.numSheets + 1
          sheet := some freshSheet }) := by
  constructor
  · intro hs
    unfold rolloverStep
    rw [if_pos hk, hs]
  · intro sh hs
    unfold rolloverStep
    rw [if_pos hk, hs]

/-- No rollover between multiples of 170. -/
theorem rolloverStep_skip (ops : ExternalOps) (k : Nat) (s : BuildState)
    (hk : ¬ k % 170 = 0) : rolloverStep ops k s = s := by
  unfold rolloverStep
  rw [if_neg hk]

/-- With a sheet in progress, compositing succeeds: the cell-bound
assertions always hold because the cell index is below 170. -/
theorem compositeStep_some (baseline : Int) (g : GlyphRender) (k : Nat)
    (s : BuildState) (sh : Sheet) (hs : s.sheet = some sh) :
    compositeStep baseline g k s =
      some { s with
        sheet := some
          (compositeGlyph baseline g (k % 170 % 10 * 24)
            (k % 170 / 10 * 30) sh) } := by
  unfold compositeStep
  rw [hs]
  show (if k % 170 % 10 * 24 + 24 < 256 ∧ k % 170 / 10 * 30 + 30 < 512 then
      some { s with
        sheet := some
          (compositeGlyph baseline g (k % 170 % 10 * 24)
            (k % 170 / 10 * 30) sh) }
    else none) = _
  rw [if_pos (by omega)]

/-- Flushing with no sheet in progress is a no-op. -/
theorem flushSheet_none (ops : ExternalOps) (s : BuildState)
    (h : s.sheet = none) : flushSheet ops s = s := by
  unfold flushSheet
  rw [h]

/-- Flushing an in-progress sheet appends its bytes and counts it. -/
theorem flushSheet_some (ops : ExternalOps) (s : BuildState) (sh : Sheet)
    (h : s.sheet = some sh) :
    flushSheet ops s =
      { s with
        sheetData := s.sheetData ++ appendSheetBytes ops sh
        numSheets := s.numSheets + 1
        sheet := none } := by
  unfold flushSheet
  rw [h]

/-- One successful glyph with index `e.cfntIndex` preserves the sheet
invariant, advancing it by one glyph. -/
theorem entryStep_inv (ops : ExternalOps) (load : Nat → Option GlyphRender)
    (baseline : Int) (s : BuildState) (e : CharMapEntry) (g : GlyphRender)
    (hg : load e.faceIndex = some g) (hinv : SheetInv e.cfntIndex s) :
    ∃ s', entryStep ops load baseline (some s) e = some s' ∧
      SheetInv (e.cfntIndex + 1) s' := by
  have hred : entryStep ops load baseline (some s) e =
      compositeStep baseline g e.cfntIndex
        (rolloverStep ops e.cfntIndex
          { s with widths := s.widths ++ [mkWidth g] }) := by
    unfold entryStep
    rw [hg]
  by_cases hk0 : e.cfntIndex % 170 = 0
  · cases hsh : s.sheet with
    | none =>
      have hkz : e.cfntIndex = 0 := by
        by_cases hz : e.cfntIndex = 0
        · exact hz
        · unfold SheetInv at hinv
          rw [if_neg hz, hsh] at hinv
          exact absurd hinv.1 (by simp)
      have hnum : s.numSheets = 0 := by
        unfold SheetInv at hinv
        rw [if_pos hkz] at hinv
        exact hinv.2
      have hroll := (rolloverStep_roll ops e.cfntIndex
        { s with widths := s.widths ++ [mkWidth g] } hk0).1 hsh
      have hsheet' : (rolloverStep ops e.cfntIndex
          { s with widths := s.widths ++ [mkWidth g] }).sheet =
          some freshSheet := by
        rw [hroll]
      have hfinal := compositeStep_some baseline g e.cfntIndex
        (rolloverStep ops e.cfntIndex
          { s with widths := s.widths ++ [mkWidth g] }) freshSheet hsheet'
      refine ⟨_, hred.trans hfinal, ?_⟩
      unfold SheetInv
      rw [if_neg (by omega)]
      refine ⟨rfl, ?_⟩
      show (rolloverStep ops e.cfntIndex
        { s with widths := s.widths ++ [mkWidth g] }).numSheets =
        (e.cfntIndex + 1 - 1) / 170
      rw [hroll]
      show s.numSheets = (e.cfntIndex + 1 - 1) / 170
      omega
    | some sh =>
      have hknz : ¬ e.cfntIndex = 0 := by
        intro hz
        unfold SheetInv at hinv
        rw [if_pos hz] at hinv
        rw [hinv.1] at hsh
        cases hsh
      have hnum : s.numSheets = (e.cfntIndex - 1) / 170 := by
        unfold SheetInv at hinv
        rw [if_neg hknz] at hinv
        exact hinv.2
      have hroll := (rolloverStep_roll ops e.cfntIndex
        { s with widths := s.widths ++ [mkWidth g] } hk0).2 sh hsh
      have hsheet' : (rolloverStep ops e.cfntIndex
          { s with widths := s.widths ++ [mkWidth g] }).sheet =
          some freshSheet := by
        rw [hroll]
      have hfinal := compositeStep_some baseline g e.cfntIndex
        (rolloverStep ops e.cfntIndex
          { s with widths := s.widths ++ [mkWidth g] }) freshSheet hsheet'
      refine ⟨_, hred.trans hfinal, ?_⟩
      unfold SheetInv
      rw [if_neg (by omega)]
      refine ⟨rfl, ?_⟩
      show (rolloverStep ops e.cfntIndex
        { s with widths := s.widths ++ [mkWidth g] }).numSheets =
        (e.cfntIndex + 1 - 1) / 170
      rw [hroll]
      show s.numSheets + 1 = (e.cfntIndex + 1 - 1) / 170
      omega
  · have hknz : ¬ e.cfntIndex = 0 := fun hz => hk0 (by rw [hz])
    have hinv' : s.sheet.isSome = true ∧
        s.numSheets = (e.cfntIndex - 1) / 170 := by
      unfold SheetInv at hinv
      rw [if_neg hknz] at hinv
      exact hinv
    obtain ⟨sh, hsh⟩ := Option.isSome_iff_exists.mp hinv'.1
    obtain ⟨hs1, hs2⟩ := hinv'
    have hroll := rolloverStep_skip ops e.cfntIndex
      { s with widths := s.widths ++ [mkWidth g] } hk0
    have hsheet' : (rolloverStep ops e.cfntIndex
        { s with widths := s.widths ++ [mkWidth g] }).sheet = some sh := by
      rw [hroll]
      exact hsh
    have hfinal := compositeStep_some baseline g e.cfntIndex
      (rolloverStep ops e.cfntIndex
        { s with widths := s.widths ++ [mkWidth g] }) sh hsheet'
    refine ⟨_, hred.trans hfinal, ?_⟩
    unfold SheetInv
    rw [if_neg (by omega)]
    refine ⟨rfl, ?_⟩
    show (rolloverStep ops e.cfntIndex
      { s with widths := s.widths ++ [mkWidth g] }).numSheets =
      (e.cfntIndex + 1 - 1) / 170
    rw [hroll]
    show s.numSheets = (e.cfntIndex + 1 - 1) / 170
    omega

/-- Folding successful glyphs with consecutive indices from `k` keeps the
sheet invariant. -/
theorem entryFold_inv (ops : ExternalOps) (load : Nat → Option GlyphRender)
    (baseline : Int) (htotal : ∀ fi, (load fi).isSome = true) :
    ∀ (l : List CharMapEntry) (k : Nat) (s : BuildState),
      l.map (fun e => e.cfntIndex) = List.range' k l.length →
      SheetInv k s →
      ∃ s', l.foldl (entryStep ops load baseline) (some s) = some s' ∧
        SheetInv (k + l.length) s' := by
  intro l
  induction l with
  | nil =>
    intro k s _ hinv
    exact ⟨s, rfl, by simpa using hinv⟩
  | cons e l ih =>
    intro k s hidx hinv
    rw [List.map_cons, show (e :: l).length = l.length + 1 from rfl,
      List.range'_succ] at hidx
    injection hidx with h1 h2
    obtain ⟨g, hg⟩ := Option.isSome_iff_exists.mp (htotal e.faceIndex)
    obtain ⟨s1, hstep, hinv1⟩ := entryStep_inv ops load baseline s e g hg
      (by rw [h1]; exact hinv)
    rw [List.foldl_cons, hstep]
    obtain ⟨s', hrec, hinv'⟩ := ih (k + 1) s1 h2 (by rw [← h1]; exact hinv1)
    refine ⟨s', hrec, ?_⟩
    rw [show k + (e :: l).length = k + 1 + l.length from by
      simp only [List.length_cons]; omega]
    exact hinv'

/-- C5 (amended): when every glyph rasterizes successfully, the number of
finalized sheets is `ceil(G / 170)` for `G` the number of indexed glyphs
(`0` when `G = 0`).  The hypotheses say the face map is sorted by code
with dense indices `0, 1, …` — exactly what the indexer produces — and
that the loader always succeeds.  When rasterization failures occur the
property fails, because rollover is keyed to the pre-assigned glyph index
rather than the success count (see the counterexample, where the build
even aborts on `assert(sheet)`). -/
theorem sheetCount_all_success (ops : ExternalOps)
    (load : Nat → Option GlyphRender) (m : List CharMapEntry)
    (baseline : Int)
    (hsorted : (m.map (fun e => e.code)).Chain' (· < ·))
    (hdense : m.map (fun e => e.cfntIndex) = List.range m.length)
    (htotal : ∀ fi, (load fi).isSome = true) :
    ∃ s, buildAtlas ops load m baseline (coalesce m) = some s ∧
      s.numSheets = (m.length + 169) / 170 := by
  unfold buildAtlas
  rw [loop_eq_entryFold ops load m baseline hsorted]
  obtain ⟨s', hfold, hinv⟩ := entryFold_inv ops load baseline htotal m 0
    ⟨[], none, 0, []⟩
    (by rw [hdense, List.range_eq_range'])
    (by unfold SheetInv; rw [if_pos rfl]; exact ⟨rfl, rfl⟩)
  rw [hfold]
  refine ⟨flushSheet ops s', rfl, ?_⟩
  simp only [Nat.zero_add] at hinv
  by_cases hm : m.length = 0
  · unfold SheetInv at hinv
    rw [if_pos hm] at hinv
    rw [flushSheet_none ops s' hinv.1, hinv.2, hm]
  · unfold SheetInv at hinv
    rw [if_neg hm] at hinv
    obtain ⟨sh, hsh⟩ := Option.isSome_iff_exists.mp hinv.1
    obtain ⟨hs1, hs2⟩ := hinv
    rw [flushSheet_some ops s' sh hsh]
    show s'.numSheets + 1 = (m.length + 169) / 170
    omega

/-- C5 witness: two consecutive code points, all rasterizing
successfully, produce exactly one sheet. -/
theorem sheetCount_all_success_witness :
    ∃ s, buildAtlas ops0 loadAll [⟨1, 0, 0⟩, ⟨2, 0, 1⟩] 0
        (coalesce [⟨1, 0, 0⟩, ⟨2, 0, 1⟩]) = some s ∧
      s.numSheets =
        (([⟨1, 0, 0⟩, ⟨2, 0, 1⟩] : List CharMapEntry).length + 169) / 170 :=
  sheetCount_all_success ops0 loadAll [⟨1, 0, 0⟩, ⟨2, 0, 1⟩] 0
    (List.chain'_cons.mpr ⟨by decide, List.chain'_singleton _⟩)
    (by decide) (fun _ => rfl)

/-- C5 counterexample: on the face map with codes 1, 2 (glyph indices 0
and 1) where the first glyph fails to rasterize and the second succeeds
(G = 1 successfully-rasterized glyph, so the claim predicts
`ceil(1/170) = 1` sheet), the build aborts at `assert(sheet)` — the
second glyph has no sheet because the rollover at index 0 was skipped —
and no sheet count exists at all. -/
theorem sheetCount_counterexample :
    buildAtlas ops0 loadFail0 m0 0 (coalesce m0) = none ∧
    ¬ ∃ s, buildAtlas ops0 loadFail0 m0 0 (coalesce m0) = some s ∧
      s.numSheets = (1 + 169) / 170 := by
  have h : buildAtlas ops0 loadFail0 m0 0 (coalesce m0) = none := rfl
  refine ⟨h, ?_⟩
  rintro ⟨s, hs, _⟩
  rw [h] at hs
  cases hs

end Bcfnt
